import Mathlib

/-!
A verification development for the rich-text-to-render-plan converter
(`src/renderer.ts` of contentful-rich-text-figma-renderer).

The TypeScript source is shallowly embedded: every function below is a
direct translation of the corresponding function in `renderer.ts`.
JavaScript values that may be `undefined`/`null` are modelled as `Option`;
JavaScript string truthiness (`""` is falsy) is modelled by `jsStr`.
A JavaScript runtime failure (iterating the `undefined` `content` of a
text leaf after an unchecked cast to a block) is modelled by returning
`none`, so the walker functions return `Option (List Segment)`.
-/

/-- List type of a formatting context / segment: `"unordered" | "ordered"`. -/
inductive ListType where
  | unordered
  | ordered
deriving DecidableEq, Repr

/-- The inherited formatting context (`BlockContext` in `renderer.ts`). -/
structure BlockContext where
  headingLevel : Nat
  listType : Option ListType
  listIndent : Nat
  isBlockquote : Bool
deriving DecidableEq, Repr

/-- `DEFAULT_CONTEXT` of `renderer.ts`. -/
def DEFAULT_CONTEXT : BlockContext :=
  { headingLevel := 0, listType := none, listIndent := 0, isBlockquote := false }

/-- An output segment (`RichTextSegment` in `types.ts`): text plus resolved
formatting attributes. -/
structure Segment where
  text : String
  bold : Bool
  italic : Bool
  underline : Bool
  code : Bool
  headingLevel : Nat
  listType : Option ListType
  listIndent : Nat
  hyperlink : Option String
deriving DecidableEq, Repr

/-- A table row of the structured table path (`RichTextTableRow`). -/
structure TableRow where
  cells : List (List Segment)
  isHeader : Bool
deriving DecidableEq, Repr

/-- One block of the render plan (`RichTextRenderBlock`). -/
inductive RenderBlock where
  | text (segments : List Segment)
  | image (url : String) (title : String)
  | hr
  | table (rows : List TableRow)
deriving DecidableEq, Repr

/-- A `title` field: either a plain string or a localized record
(`Record<string, string>`), as read by
`typeof t === "object" ? t["en-US"] : t`. -/
inductive LocalizedStr where
  | plain (s : String)
  | localized (entries : List (String × String))
deriving DecidableEq, Repr

/-- A `file` field of an asset target: either a plain `{ url? }` object or a
localized record mapping locale names to `{ url? }` objects (each object
represented by its optional `url`). -/
inductive FileField where
  | plain (url : Option String)
  | localized (entries : List (String × Option String))
deriving DecidableEq, Repr

/-- The `data.target` payload: the fields the renderer reads
(`fields.title`, `fields.file`, `sys.id`); an absent member is `none`. -/
structure Target where
  title : Option LocalizedStr
  file : Option FileField
  sysId : Option String
deriving DecidableEq, Repr

/-- A node's `data` payload: the members the renderer reads
(`data.uri`, `data.target`); an absent member is `none`. -/
structure NodeData where
  uri : Option String
  target : Option Target
deriving DecidableEq, Repr

/-- A `data` payload with no members. -/
def emptyData : NodeData := { uri := none, target := none }

/-- A node of the rich-text tree. `text` is a `RichTextText` leaf
(`nodeType: "text"`, a value and a list of mark type strings, no `content`
member); `elem` is any non-text node (`RichTextBlock` / `RichTextInline`):
a node-type tag, a `data` payload and a `content` array. -/
inductive RNode where
  | text (value : String) (marks : List String)
  | elem (nodeType : String) (data : NodeData) (content : List RNode)
deriving Repr

/-- The document root (`RichTextDocument`): an ordered list of top-level
nodes (its `nodeType`/`data` members are never read by the renderer). -/
structure RichTextDocument where
  content : List RNode
deriving Repr

/-- JavaScript string truthiness: `undefined`, `null` and `""` are falsy.
`jsStr o` is `o` when it holds a non-empty string, else `none`. -/
def jsStr : Option String → Option String
  | some s => if s = "" then none else some s
  | none => none

/-- `hasMarks` of `renderer.ts`: `node.marks?.some((m) => m.type === markType)`. -/
def hasMarks (marks : List String) (markType : String) : Bool :=
  marks.any (fun m => m == markType)

/-- `textNodeToSegment` of `renderer.ts`. -/
def textNodeToSegment (value : String) (marks : List String)
    (ctx : BlockContext) : Segment :=
  { text := value
    bold := hasMarks marks ("bold")
    italic := hasMarks marks ("italic")
    underline := hasMarks marks ("underline")
    code := hasMarks marks ("code")
    headingLevel := ctx.headingLevel
    listType := ctx.listType
    listIndent := ctx.listIndent
    hyperlink := none }

/-- The read `typeof t === "object" ? t["en-US"] : t` applied to a
title field. -/
def localizedLookup : LocalizedStr → Option String
  | .plain s => some s
  | .localized entries => entries.lookup ("en-US")

/-- The property access `.url` on a `file` value, as performed by
`inline.data?.target?.fields?.file?.url` (a localized record has no `url`
member of its own). -/
def FileField.urlMember : FileField → Option String
  | .plain url => url
  | .localized _ => none

/-- The read `(file)?.["en-US"] || (file)` followed by `.url`, as performed
by the embedded-asset path of `documentToRenderPlan`: a localized record
yields its `"en-US"` entry's `url`; a plain `{ url? }` object (whose
`"en-US"` member is `undefined`) yields its own `url`. -/
def FileField.localizedUrl : FileField → Option String
  | .plain url => url
  | .localized entries =>
      match entries.lookup ("en-US") with
      | some url => url
      | none => none

/-- The hyperlink target resolution of `collectSegmentsFromInline`:
`(data?.uri) || (data?.target?.fields?.file?.url) || null`, with
JavaScript `||` (an empty string falls through). -/
def resolveHref (data : NodeData) : Option String :=
  match jsStr data.uri with
  | some u => some u
  | none => jsStr ((data.target.bind Target.file).bind FileField.urlMember)

/-- The entry-title fallback chain used by `collectSegmentsFromInline`,
the embedded-entry path of `documentToRenderPlan` and of
`richTextToPlainString`:
`(typeof title === "object" ? title["en-US"] : title) || sys?.id || "entry"`. -/
def entryTitle (data : NodeData) : String :=
  match jsStr ((data.target.bind Target.title).bind localizedLookup) with
  | some t => t
  | none =>
      match jsStr (data.target.bind Target.sysId) with
      | some i => i
      | none => "entry"

/-- `collectSegmentsFromInline` of `renderer.ts`, on the parts of an
`elem` node: emits one segment per text child (forcing
`hyperlink`/`underline` when a hyperlink target resolved), then appends
the placeholder segment for an `embedded-entry-inline` node. -/
def collectSegmentsFromInline (nodeType : String) (data : NodeData)
    (content : List RNode) (ctx : BlockContext) : List Segment :=
  let isHyperlink : Bool :=
    nodeType == "hyperlink" || nodeType == "entry-hyperlink" ||
      nodeType == "asset-hyperlink"
  let href : Option String := if isHyperlink then resolveHref data else none
  let segments : List Segment :=
    content.filterMap (fun child =>
      match child with
      | .text v marks =>
          let seg := textNodeToSegment v marks ctx
          some (match href with
            | some h => { seg with hyperlink := some h, underline := true }
            | none => seg)
      | .elem _ _ _ => none)
  if nodeType == "embedded-entry-inline" then
    segments ++
      [{ text := "[" ++ entryTitle data ++ "]"
         bold := false
         italic := true
         underline := false
         code := false
         headingLevel := ctx.headingLevel
         listType := ctx.listType
         listIndent := ctx.listIndent
         hyperlink := none }]
  else segments

/-- `isBlockNode` of `renderer.ts`. -/
def isBlockNode (nodeType : String) : Bool :=
  ([ "paragraph", "heading-1", "heading-2", "heading-3", "heading-4",
     "heading-5", "heading-6", "blockquote", "unordered-list",
     "ordered-list", "list-item", "table", "table-row", "table-cell",
     "table-header-cell", "hr", "embedded-asset-block",
     "embedded-entry-block" ] : List String).contains nodeType

/-- The test `nodeType.startsWith("heading-")` of `processBlock`,
computed on the character list so it evaluates by `decide`. -/
def isHeadingType (nodeType : String) : Bool :=
  nodeType.toList.take 8 == "heading-".toList

/-- `headingLevelFromNodeType` of `renderer.ts`: the regular expression
`^heading-(\d)$` demands exactly one digit after `heading-`; on a match the
digit is the level, otherwise 0. -/
def headingLevelFromNodeType (nodeType : String) : Nat :=
  match nodeType.toList.drop 8 with
  | [c] =>
      if nodeType.toList.take 8 == "heading-".toList && c.isDigit then
        c.toNat - 48
      else 0
  | _ => 0

mutual

/-- `processBlock` of `renderer.ts`: dispatch on the node type; `none`
models the TypeScript `TypeError` raised when the generic fallback
iterates the `undefined` `content` of a text leaf that was cast to a
block. -/
def processBlock (block : RNode) (parentCtx : BlockContext) :
    Option (List Segment) :=
  match block with
  | .text v marks => collectSegmentsFromBlock (.text v marks) parentCtx
  | .elem nodeType data content =>
      if isHeadingType nodeType then
        collectSegmentsFromBlock (.elem nodeType data content)
          { parentCtx with headingLevel := headingLevelFromNodeType nodeType }
      else if nodeType == "paragraph" then
        collectSegmentsFromBlock (.elem nodeType data content) parentCtx
      else if nodeType == "blockquote" then
        processChildren content { parentCtx with isBlockquote := true }
      else if nodeType == "unordered-list" || nodeType == "ordered-list" then
        processListItems content
          (if nodeType == "unordered-list" then ListType.unordered
           else ListType.ordered)
          parentCtx
      else if nodeType == "table" then
        processTableRowsFlat content parentCtx
      else if nodeType == "table-cell" || nodeType == "table-header-cell" then
        processChildren content parentCtx
      else
        collectSegmentsFromBlock (.elem nodeType data content) parentCtx

termination_by 2 * sizeOf block + 1

/-- `collectSegmentsFromBlock` of `renderer.ts`: iterating `block.content`
throws (`none`) when `block` is a text leaf, whose `content` is
`undefined`. -/
def collectSegmentsFromBlock (block : RNode) (ctx : BlockContext) :
    Option (List Segment) :=
  match block with
  | .text _ _ => none
  | .elem _ _ content => collectFromChildren content ctx

termination_by 2 * sizeOf block

/-- The child loop of `collectSegmentsFromBlock`: a text child goes to
`textNodeToSegment`; a non-text child with a (truthy) `content` member and
a non-block node type goes to `collectSegmentsFromInline`; a block-typed
child recurses through `processBlock`. -/
def collectFromChildren (children : List RNode) (ctx : BlockContext) :
    Option (List Segment) :=
  match children with
  | [] => some []
  | child :: rest =>
      match child with
      | .text v marks =>
          match collectFromChildren rest ctx with
          | some tail => some (textNodeToSegment v marks ctx :: tail)
          | none => none
      | .elem cty cdata ccontent =>
          if !isBlockNode cty then
            match collectFromChildren rest ctx with
            | some tail =>
                some (collectSegmentsFromInline cty cdata ccontent ctx ++ tail)
            | none => none
          else
            match processBlock (.elem cty cdata ccontent) ctx with
            | some head =>
                match collectFromChildren rest ctx with
                | some tail => some (head ++ tail)
                | none => none
            | none => none

termination_by 2 * sizeOf children + 1

/-- The child loop of the `blockquote` and `table-cell`/`table-header-cell`
branches of `processBlock`: every child is recursed into via
`processBlock`. -/
def processChildren (children : List RNode) (ctx : BlockContext) :
    Option (List Segment) :=
  match children with
  | [] => some []
  | child :: rest =>
      match processBlock child ctx with
      | some head =>
          match processChildren rest ctx with
          | some tail => some (head ++ tail)
          | none => none
      | none => none

termination_by 2 * sizeOf children + 1

/-- The child loop of the list branch of `processBlock`: a `list-item`
child has each of its content blocks recursed into with the list context
(`listType` set, `listIndent` bumped); any other child is ignored. -/
def processListItems (children : List RNode) (listType : ListType)
    (parentCtx : BlockContext) : Option (List Segment) :=
  match children with
  | [] => some []
  | child :: rest =>
      match child with
      | .elem cty _ ccontent =>
          if cty == "list-item" then
            match processChildren ccontent
                { parentCtx with
                    listType := some listType
                    listIndent := parentCtx.listIndent + 1 } with
            | some head =>
                match processListItems rest listType parentCtx with
                | some tail => some (head ++ tail)
                | none => none
            | none => none
          else
            processListItems rest listType parentCtx
      | .text _ _ => processListItems rest listType parentCtx

termination_by 2 * sizeOf children + 1

/-- The row loop of the (flat, plain-text fallback) `table` branch of
`processBlock`: each `table-row` child becomes one synthetic segment whose
text is the tab-joined concatenation of the row's cell texts. -/
def processTableRowsFlat (rows : List RNode) (parentCtx : BlockContext) :
    Option (List Segment) :=
  match rows with
  | [] => some []
  | row :: rest =>
      match row with
      | .elem rty _ rcontent =>
          if rty == "table-row" then
            match collectCellTexts rcontent parentCtx with
            | some cellTexts =>
                match processTableRowsFlat rest parentCtx with
                | some tail =>
                    some
                      ({ text := String.intercalate "\t" cellTexts
                         bold := false
                         italic := false
                         underline := false
                         code := false
                         headingLevel := 0
                         listType := none
                         listIndent := 0
                         hyperlink := none } :: tail)
                | none => none
            | none => none
          else processTableRowsFlat rest parentCtx
      | .text _ _ => processTableRowsFlat rest parentCtx

termination_by 2 * sizeOf rows + 1

/-- The cell loop of the flat `table` branch: each cell is recursed into
via `processBlock` and its segment texts are joined. -/
def collectCellTexts (cells : List RNode) (parentCtx : BlockContext) :
    Option (List String) :=
  match cells with
  | [] => some []
  | cell :: rest =>
      match processBlock cell parentCtx with
      | some cellSegs =>
          match collectCellTexts rest parentCtx with
          | some tail => some (String.join (cellSegs.map Segment.text) :: tail)
          | none => none
      | none => none

termination_by 2 * sizeOf cells + 1
end

/-- The formatting comparison of `mergeAdjacentSegments`: the eight
formatting fields (`bold`, `italic`, `underline`, `code`, `headingLevel`,
`listType`, `listIndent`, `hyperlink`); the `text` field is not compared. -/
def segFmtEq (prev curr : Segment) : Bool :=
  prev.bold == curr.bold && prev.italic == curr.italic &&
    prev.underline == curr.underline && prev.code == curr.code &&
    prev.headingLevel == curr.headingLevel && prev.listType == curr.listType &&
    prev.listIndent == curr.listIndent && prev.hyperlink == curr.hyperlink

/-- The scan loop of `mergeAdjacentSegments`: `prev` is the last
accumulated segment; a formatting match concatenates the current text into
it, a mismatch emits it and starts accumulating from the current
segment. -/
def mergeAux (prev : Segment) (rest : List Segment) : List Segment :=
  match rest with
  | [] => [prev]
  | curr :: rest' =>
      if segFmtEq prev curr then
        mergeAux { prev with text := prev.text ++ curr.text } rest'
      else prev :: mergeAux curr rest'

/-- `mergeAdjacentSegments` of `renderer.ts`. -/
def mergeAdjacentSegments (segments : List Segment) : List Segment :=
  match segments with
  | [] => []
  | first :: rest => mergeAux first rest

/-- The cell loop of `processTableToRows`: accumulates the merged cells
and the row's `isHeader` flag; a text-leaf cell makes the iteration of its
`undefined` `content` throw (`none`). -/
def tableCellsAux (cells : List RNode) : Option (List (List Segment) × Bool) :=
  match cells with
  | [] => some ([], false)
  | cell :: rest =>
      match cell with
      | .text _ _ => none
      | .elem cty _ ccontent =>
          match processChildren ccontent DEFAULT_CONTEXT with
          | some cellSegments =>
              match tableCellsAux rest with
              | some (tailCells, tailHeader) =>
                  some (mergeAdjacentSegments cellSegments :: tailCells,
                    (cty == "table-header-cell") || tailHeader)
              | none => none
          | none => none

/-- The row loop of `processTableToRows`: non-`table-row` children are
skipped. -/
def tableRowsAux (rows : List RNode) : Option (List TableRow) :=
  match rows with
  | [] => some []
  | row :: rest =>
      match row with
      | .text _ _ => tableRowsAux rest
      | .elem rty _ rcontent =>
          if rty == "table-row" then
            match tableCellsAux rcontent with
            | some (cells, isHeader) =>
                match tableRowsAux rest with
                | some tail =>
                    some ({ cells := cells, isHeader := isHeader } :: tail)
                | none => none
            | none => none
          else tableRowsAux rest

/-- `processTableToRows` of `renderer.ts`. -/
def processTableToRows (tableBlock : RNode) : Option (List TableRow) :=
  match tableBlock with
  | .text _ _ => none
  | .elem _ _ content => tableRowsAux content

/-- The asset URL resolution of the embedded-asset path of
`documentToRenderPlan`: `file?.url ? "https:" + file.url : null`. -/
def assetImageUrl (data : NodeData) : Option String :=
  match jsStr ((data.target.bind Target.file).bind FileField.localizedUrl) with
  | some u => some ("https:" ++ u)
  | none => none

/-- The asset title fallback of `documentToRenderPlan`:
`(typeof t === "object" ? t["en-US"] : t) || "image"`. -/
def assetTitle (data : NodeData) : String :=
  match jsStr ((data.target.bind Target.title).bind localizedLookup) with
  | some t => t
  | none => "image"

/-- The placeholder segment built by the embedded-entry path of
`documentToRenderPlan`. -/
def embeddedEntrySegment (data : NodeData) : Segment :=
  { text := "[Embedded: " ++ entryTitle data ++ "]"
    bold := false
    italic := true
    underline := false
    code := false
    headingLevel := 0
    listType := none
    listIndent := 0
    hyperlink := none }

/-- The body of the top-level loop of `documentToRenderPlan`: the render
blocks contributed by one top-level node (zero or one). -/
def planTopBlock (topBlock : RNode) : Option (List RenderBlock) :=
  match topBlock with
  | .text v marks =>
      match processBlock (.text v marks) DEFAULT_CONTEXT with
      | some segments =>
          some (if segments.length > 0 then
            [RenderBlock.text (mergeAdjacentSegments segments)] else [])
      | none => none
  | .elem nodeType data content =>
      if nodeType == "table" then
        match processTableToRows (.elem nodeType data content) with
        | some rows =>
            some (if rows.length > 0 then [RenderBlock.table rows] else [])
        | none => none
      else if nodeType == "embedded-asset-block" then
        some (match assetImageUrl data with
          | some url => [RenderBlock.image url (assetTitle data)]
          | none => [])
      else if nodeType == "embedded-entry-block" then
        some [RenderBlock.text [embeddedEntrySegment data]]
      else if nodeType == "hr" then
        some [RenderBlock.hr]
      else
        match processBlock (.elem nodeType data content) DEFAULT_CONTEXT with
        | some segments =>
            some (if segments.length > 0 then
              [RenderBlock.text (mergeAdjacentSegments segments)] else [])
        | none => none

/-- The top-level loop of `documentToRenderPlan`. -/
def planBlocksAux (tops : List RNode) : Option (List RenderBlock) :=
  match tops with
  | [] => some []
  | top :: rest =>
      match planTopBlock top with
      | some head =>
          match planBlocksAux rest with
          | some tail => some (head ++ tail)
          | none => none
      | none => none

/-- `documentToRenderPlan` of `renderer.ts`. -/
def documentToRenderPlan (doc : RichTextDocument) : Option (List RenderBlock) :=
  planBlocksAux doc.content

/-- The asset title fallback of `richTextToPlainString`:
`(typeof t === "object" ? t["en-US"] : t) || "[image]"`. -/
def plainAssetTitle (data : NodeData) : String :=
  match jsStr ((data.target.bind Target.title).bind localizedLookup) with
  | some t => t
  | none => "[image]"

/-- The body of the top-level loop of `richTextToPlainString`: the lines
contributed by one top-level node (zero or one; a non-special node's line
is included only when its concatenated segment text is non-empty). -/
def plainLineOf (block : RNode) : Option (List String) :=
  match block with
  | .text v marks =>
      match processBlock (.text v marks) DEFAULT_CONTEXT with
      | some segments =>
          some (if String.join (segments.map Segment.text) = "" then []
            else [String.join (segments.map Segment.text)])
      | none => none
  | .elem nodeType data content =>
      if nodeType == "hr" then some ["---"]
      else if nodeType == "embedded-asset-block" then
        some ["[" ++ plainAssetTitle data ++ "]"]
      else if nodeType == "embedded-entry-block" then
        some ["[Embedded: " ++ entryTitle data ++ "]"]
      else
        match processBlock (.elem nodeType data content) DEFAULT_CONTEXT with
        | some segments =>
            some (if String.join (segments.map Segment.text) = "" then []
              else [String.join (segments.map Segment.text)])
        | none => none

/-- The top-level loop of `richTextToPlainString`. -/
def plainLinesAux (blocksList : List RNode) : Option (List String) :=
  match blocksList with
  | [] => some []
  | block :: rest =>
      match plainLineOf block with
      | some head =>
          match plainLinesAux rest with
          | some tail => some (head ++ tail)
          | none => none
      | none => none

/-- `richTextToPlainString` of `renderer.ts`; the argument is `none` for a
`null`/`undefined` document (the guard `if (!doc || !doc.content)`). -/
def richTextToPlainString (doc : Option RichTextDocument) : Option String :=
  match doc with
  | none => some ""
  | some d =>
      match plainLinesAux d.content with
      | some lines => some (String.intercalate "\n" lines)
      | none => none

/-- One step of the segment merger as §4.5 of the specification words it:
compare the current segment to the last accumulated one across the eight
formatting fields; on a full match concatenate the text into the
accumulated segment, otherwise start a new accumulated segment. -/
def mergeStepSpec (merged : List Segment) (curr : Segment) : List Segment :=
  match merged.getLast? with
  | some prev =>
      if segFmtEq prev curr then
        merged.dropLast ++ [{ prev with text := prev.text ++ curr.text }]
      else merged ++ [curr]
  | none => [curr]

/-- The reference linear scan of §4.5 of the specification: fold
`mergeStepSpec` over the input in order. -/
def mergeAdjacentSegmentsSpec (segments : List Segment) : List Segment :=
  segments.foldl mergeStepSpec []

/-- In-order concatenation of the texts of a segment sequence. -/
def joinTexts (segments : List Segment) : String :=
  String.join (segments.map Segment.text)

/-- Whether a node is a `table-row` element. -/
def isTableRowNode : RNode → Bool
  | .text _ _ => false
  | .elem ty _ _ => ty == "table-row"

/-- Whether a node is a `table-header-cell` element. -/
def isHeaderCellNode : RNode → Bool
  | .text _ _ => false
  | .elem ty _ _ => ty == "table-header-cell"

/-- Fallible map over a list: `some` of the list of results when every
element succeeds, else `none`. -/
def traverseOpt (f : α → Option β) : List α → Option (List β)
  | [] => some []
  | a :: l =>
      match f a, traverseOpt f l with
      | some b, some bs => some (b :: bs)
      | _, _ => none

/-- One table cell as §4.4 of the specification words it: recurse via the
block walker with the root formatting context, then merge that cell's
segments independently (a text leaf in cell position fails). -/
def specTableCell (cell : RNode) : Option (List Segment) :=
  match cell with
  | .text _ _ => none
  | .elem _ _ ccontent =>
      (processChildren ccontent DEFAULT_CONTEXT).map mergeAdjacentSegments

/-- One table row as §4.4 of the specification words it: one cell per
child in source order, `isHeader` true iff any direct cell child is a
header-cell node. -/
def specTableRow (row : RNode) : Option TableRow :=
  match row with
  | .text _ _ => none
  | .elem _ _ rcontent =>
      (traverseOpt specTableCell rcontent).map
        (fun cells => { cells := cells, isHeader := rcontent.any isHeaderCellNode })

/-- The table extractor as §4.4 of the specification words it: one row per
`table-row` child, in source order. -/
def processTableToRowsSpec (tableContent : List RNode) : Option (List TableRow) :=
  traverseOpt specTableRow (tableContent.filter isTableRowNode)

mutual

/-- Whether `processBlock` on this node returns a result (for every
context): false exactly when some text leaf sits in a position that the
dispatch recurses into as a block. -/
def processSafe : RNode → Bool
  | .text _ _ => false
  | .elem ty _ content =>
      if isHeadingType ty then collectSafe content
      else if ty == "paragraph" then collectSafe content
      else if ty == "blockquote" then allSafe content
      else if ty == "unordered-list" || ty == "ordered-list" then
        listItemsSafe content
      else if ty == "table" then flatRowsSafe content
      else if ty == "table-cell" || ty == "table-header-cell" then
        allSafe content
      else collectSafe content

/-- Safety of the children of a node walked by `collectSegmentsFromBlock`:
text and inline children are always safe, block-typed children must be
`processSafe`. -/
def collectSafe : List RNode → Bool
  | [] => true
  | child :: rest =>
      (match child with
       | .text _ _ => true
       | .elem cty cdata ccontent =>
           if !isBlockNode cty then true
           else processSafe (.elem cty cdata ccontent)) &&
      collectSafe rest

/-- Safety of a list of nodes each recursed into via `processBlock`. -/
def allSafe : List RNode → Bool
  | [] => true
  | child :: rest => processSafe child && allSafe rest

/-- Safety of the children of a list block: only `list-item` children are
recursed into (each of their content nodes via `processBlock`). -/
def listItemsSafe : List RNode → Bool
  | [] => true
  | child :: rest =>
      (match child with
       | .text _ _ => true
       | .elem cty _ ccontent =>
           if cty == "list-item" then allSafe ccontent else true) &&
      listItemsSafe rest

/-- Safety of the children of a table walked by the flat table branch of
`processBlock`: each `table-row` child's cells are recursed into via
`processBlock`. -/
def flatRowsSafe : List RNode → Bool
  | [] => true
  | row :: rest =>
      (match row with
       | .text _ _ => true
       | .elem rty _ rcontent =>
           if rty == "table-row" then allSafe rcontent else true) &&
      flatRowsSafe rest

end

/-- Safety of a cell reached by `processTableToRows`: it must be an
element (its `content` is iterated) and its children are recursed into
via `processBlock`. -/
def planCellSafe : RNode → Bool
  | .text _ _ => false
  | .elem _ _ ccontent => allSafe ccontent

/-- Safety of a child of a table reached by `processTableToRows`:
non-`table-row` children are skipped. -/
def planRowSafe : RNode → Bool
  | .text _ _ => true
  | .elem rty _ rcontent =>
      if rty == "table-row" then rcontent.all planCellSafe else true

/-- Safety of a top-level node for both `documentToRenderPlan` and
`richTextToPlainString`: the special node types never recurse; a table is
reached through `processTableToRows` by the plan and through the flat
table branch by the plain-text assembler; anything else goes to
`processBlock`. -/
def topBlockSafe : RNode → Bool
  | .text _ _ => false
  | .elem ty d content =>
      if ty == "table" then
        content.all planRowSafe && processSafe (.elem ty d content)
      else if ty == "embedded-asset-block" || ty == "embedded-entry-block" ||
          ty == "hr" then true
      else processSafe (.elem ty d content)

mutual

/-- No element with a `heading-`-prefixed node type occurs in this tree. -/
def noHeading : RNode → Bool
  | .text _ _ => true
  | .elem ty _ content => !isHeadingType ty && noHeadingList content

/-- `noHeading` for every node of the list. -/
def noHeadingList : List RNode → Bool
  | [] => true
  | c :: rest => noHeading c && noHeadingList rest

end

/-- All segments carried by a render block (the segments of a text block,
and every cell segment of every row of a table block). -/
def RenderBlock.allSegments : RenderBlock → List Segment
  | .text segments => segments
  | .image _ _ => []
  | .hr => []
  | .table rows => (rows.map (fun r => r.cells.flatten)).flatten

/-- The node type string of a list kind. -/
def listNodeType : ListType → String
  | .unordered => "unordered-list"
  | .ordered => "ordered-list"

/-- A tower of single-item lists: for each kind in order, a list block of
that kind holding one `list-item` whose only content is the next level
(innermost: the given node). -/
def nestedList : List ListType → RNode → RNode
  | [], inner => inner
  | k :: rest, inner =>
      .elem (listNodeType k) emptyData
        [.elem "list-item" emptyData [nestedList rest inner]]

/-- The tuple of the eight formatting fields of a segment (everything but
`text`). -/
def segFmt (s : Segment) :
    Bool × Bool × Bool × Bool × Nat × Option ListType × Nat × Option String :=
  (s.bold, s.italic, s.underline, s.code, s.headingLevel, s.listType,
    s.listIndent, s.hyperlink)

/-- The paragraph-of-one-plain-text-leaf node used by concrete scenarios. -/
def plainParagraph (v : String) : RNode :=
  .elem "paragraph" emptyData [.text v []]

/-- The concrete blockquote-with-a-direct-text-child document on which the
walker reaches the error state. -/
def crashDoc : RichTextDocument :=
  ⟨[.elem "blockquote" emptyData [.text "hi" []]]⟩

/-- The `embedded-asset-block` of the specification's image scenario:
target file URL `//images.example.net/photo.jpg`, title `My Photo`. -/
def scenarioAssetDoc : RichTextDocument :=
  ⟨[.elem "embedded-asset-block"
      { uri := none
        target := some
          { title := some (.plain "My Photo")
            file := some (.plain (some "//images.example.net/photo.jpg"))
            sysId := none } } []]⟩

/-- An `embedded-asset-block` whose target carries neither a title nor a
file. -/
def untitledAssetDoc : RichTextDocument :=
  ⟨[.elem "embedded-asset-block" emptyData []]⟩

/-- The specification's table scenario: one header row of two header cells
(`Name`, `Age`), one data row of two cells (`Alice`, `30`). -/
def scenarioTable : RNode :=
  .elem "table" emptyData
    [ .elem "table-row" emptyData
        [ .elem "table-header-cell" emptyData [plainParagraph "Name"]
        , .elem "table-header-cell" emptyData [plainParagraph "Age"] ]
    , .elem "table-row" emptyData
        [ .elem "table-cell" emptyData [plainParagraph "Alice"]
        , .elem "table-cell" emptyData [plainParagraph "30"] ] ]

/-- A segment predicate, a context predicate and a tree restriction,
bundled for the walker invariant lemmas. -/
structure SegInv where
  P : Segment → Prop
  Q : BlockContext → Prop
  N : RNode → Bool

/-- The closure properties under which every segment emitted by the walker
satisfies the segment predicate: the predicate holds of every directly
constructed segment (text leaf under a context satisfying the context
predicate, hyperlink-modified text leaf, inline entry placeholder, flat
table row segment), the context predicate is preserved by every context
update the dispatch performs on trees satisfying the restriction, and the
restriction is hereditary. -/
structure SegInvHyps (D : SegInv) : Prop where
  hText : ∀ (v : String) (marks : List String) (ctx : BlockContext),
    D.Q ctx → D.P (textNodeToSegment v marks ctx)
  hLink : ∀ (seg : Segment) (u : String),
    D.P seg → D.P { seg with hyperlink := some u, underline := true }
  hEntry : ∀ (d : NodeData) (ctx : BlockContext), D.Q ctx →
    D.P { text := "[" ++ entryTitle d ++ "]"
          bold := false
          italic := true
          underline := false
          code := false
          headingLevel := ctx.headingLevel
          listType := ctx.listType
          listIndent := ctx.listIndent
          hyperlink := none }
  hFlat : ∀ t : String,
    D.P { text := t
          bold := false
          italic := false
          underline := false
          code := false
          headingLevel := 0
          listType := none
          listIndent := 0
          hyperlink := none }
  hHeading : ∀ (ty : String) (d : NodeData) (content : List RNode)
    (ctx : BlockContext), isHeadingType ty = true →
    D.N (.elem ty d content) = true → D.Q ctx →
    D.Q { ctx with headingLevel := headingLevelFromNodeType ty }
  hQuote : ∀ ctx : BlockContext, D.Q ctx → D.Q { ctx with isBlockquote := true }
  hList : ∀ (ctx : BlockContext) (lt : ListType), D.Q ctx →
    D.Q { ctx with listType := some lt, listIndent := ctx.listIndent + 1 }
  hHered : ∀ (ty : String) (d : NodeData) (content : List RNode),
    D.N (.elem ty d content) = true → ∀ c ∈ content, D.N c = true

/-- The hyperlink-forces-underline instance of the walker invariant: no
context or tree restriction. -/
def hyperlinkUnderlineInv : SegInv where
  P s := s.hyperlink.isSome = true → s.underline = true
  Q _ := True
  N _ := true

/-- The heading-locality instance of the walker invariant: segments carry
heading level 0, contexts have heading level 0, trees contain no heading
node. -/
def headingZeroInv : SegInv where
  P s := s.headingLevel = 0
  Q ctx := ctx.headingLevel = 0
  N := noHeading

/-- `String.join` distributes over cons. -/
theorem string_join_cons (a : String) (l : List String) :
    String.join (a :: l) = a ++ String.join l := by
  apply String.ext
  simp [String.join_eq]

/-- `segFmtEq` decides equality of the eight-field formatting tuples. -/
theorem segFmtEq_iff (a b : Segment) :
    segFmtEq a b = true ↔ segFmt a = segFmt b := by
  simp [segFmtEq, segFmt, Prod.ext_iff, and_assoc]

/-- The merge scan emits a first segment whose formatting is the
accumulator's. -/
theorem mergeAux_head_fmt (rest : List Segment) (prev : Segment) :
    ∃ b tl, mergeAux prev rest = b :: tl ∧ segFmt b = segFmt prev := by
  induction rest generalizing prev with
  | nil => exact ⟨prev, [], rfl, rfl⟩
  | cons curr rest ih =>
      rw [mergeAux]
      split
      · obtain ⟨b, tl, heq, hfmt⟩ := ih { prev with text := prev.text ++ curr.text }
        exact ⟨b, tl, heq, by rw [hfmt]; rfl⟩
      · exact ⟨prev, mergeAux curr rest, rfl, rfl⟩

/-- No two consecutive outputs of the merge scan share their formatting. -/
theorem mergeAux_chain (rest : List Segment) (prev : Segment) :
    List.Chain' (fun a b => segFmtEq a b = false) (mergeAux prev rest) := by
  induction rest generalizing prev with
  | nil => simp [mergeAux]
  | cons curr rest ih =>
      rw [mergeAux]
      split
      · exact ih _
      · rename_i hne
        obtain ⟨b, tl, heq, hfmt⟩ := mergeAux_head_fmt rest curr
        rw [heq, List.chain'_cons]
        refine ⟨?_, heq ▸ ih curr⟩
        rcases h : segFmtEq prev b with _ | _
        · rfl
        · exfalso
          rw [segFmtEq_iff] at h
          rw [hfmt] at h
          rw [← segFmtEq_iff] at h
          simp [h] at hne

/-- The merge scan leaves a formatting-wise alternating sequence
unchanged. -/
theorem mergeAux_of_chain (rest : List Segment) (prev : Segment)
    (h : List.Chain' (fun a b => segFmtEq a b = false) (prev :: rest)) :
    mergeAux prev rest = prev :: rest := by
  induction rest generalizing prev with
  | nil => rfl
  | cons curr rest ih =>
      rw [List.chain'_cons] at h
      rw [mergeAux, if_neg (by simp [h.1]), ih curr h.2]

/-- Folding the specification's merge step from an accumulator with last
element `prev` agrees with the source's scan started at `prev`. -/
theorem foldl_mergeStepSpec (rest : List Segment) (pre : List Segment)
    (prev : Segment) :
    List.foldl mergeStepSpec (pre ++ [prev]) rest = pre ++ mergeAux prev rest := by
  induction rest generalizing pre prev with
  | nil => simp [mergeAux]
  | cons curr rest ih =>
      rw [List.foldl_cons, mergeAux]
      have hstep : mergeStepSpec (pre ++ [prev]) curr =
          if segFmtEq prev curr then
            pre ++ [{ prev with text := prev.text ++ curr.text }]
          else (pre ++ [prev]) ++ [curr] := by
        simp only [mergeStepSpec, List.getLast?_concat, List.dropLast_concat]
      rw [hstep]
      split
      · exact ih pre _
      · rw [ih (pre ++ [prev]) curr]
        simp

/-- The merge scan never lengthens a sequence (by more than the initial
accumulator). -/
theorem mergeAux_length (rest : List Segment) (prev : Segment) :
    (mergeAux prev rest).length ≤ rest.length + 1 := by
  induction rest generalizing prev with
  | nil => simp [mergeAux]
  | cons curr rest ih =>
      rw [mergeAux]
      split
      · simp only [List.length_cons]
        exact le_trans (ih _) (by omega)
      · have := ih curr
        simp only [List.length_cons]
        omega

/-- The merge scan preserves the in-order concatenation of texts. -/
theorem mergeAux_joinTexts (rest : List Segment) (prev : Segment) :
    joinTexts (mergeAux prev rest) = prev.text ++ joinTexts rest := by
  induction rest generalizing prev with
  | nil => simp [mergeAux, joinTexts, string_join_cons]
  | cons curr rest ih =>
      rw [mergeAux]
      split
      · rw [ih]
        simp [joinTexts, string_join_cons, String.append_assoc]
      · have ih' := ih curr
        simp only [joinTexts, List.map_cons, string_join_cons] at ih' ⊢
        rw [ih']

/-- C4: `mergeAdjacentSegments` equals the reference linear scan of §4.5
(fold of `mergeStepSpec`, which compares exactly the eight formatting
fields and concatenates texts on a full match); consequently its output is
never longer than its input, the in-order concatenation of output texts
equals that of input texts, and empty input yields empty output. -/
theorem C4_merge_matches_reference_scan :
    (∀ s : List Segment, mergeAdjacentSegments s = mergeAdjacentSegmentsSpec s) ∧
    (∀ s : List Segment, (mergeAdjacentSegments s).length ≤ s.length) ∧
    (∀ s : List Segment, joinTexts (mergeAdjacentSegments s) = joinTexts s) ∧
    mergeAdjacentSegments [] = [] := by
  refine ⟨?_, ?_, ?_, rfl⟩
  · intro s
    cases s with
    | nil => rfl
    | cons a rest =>
        rw [mergeAdjacentSegments, mergeAdjacentSegmentsSpec, List.foldl_cons]
        have h0 : mergeStepSpec [] a = [] ++ [a] := rfl
        rw [h0, foldl_mergeStepSpec rest [] a]
        rfl
  · intro s
    cases s with
    | nil => simp [mergeAdjacentSegments]
    | cons a rest =>
        rw [mergeAdjacentSegments]
        simpa using mergeAux_length rest a
  · intro s
    cases s with
    | nil => rfl
    | cons a rest =>
        rw [mergeAdjacentSegments, mergeAux_joinTexts]
        simp only [joinTexts, List.map_cons, string_join_cons]

/-- C5: the segment merger is idempotent, and in the output of one merge
pass no two consecutive segments agree on all eight formatting fields. -/
theorem C5_merge_idempotent :
    (∀ s : List Segment,
      mergeAdjacentSegments (mergeAdjacentSegments s) = mergeAdjacentSegments s) ∧
    (∀ s : List Segment,
      List.Chain' (fun a b => segFmtEq a b = false) (mergeAdjacentSegments s)) := by
  have hchain : ∀ s : List Segment,
      List.Chain' (fun a b => segFmtEq a b = false) (mergeAdjacentSegments s) := by
    intro s
    cases s with
    | nil => simp [mergeAdjacentSegments]
    | cons a rest =>
        rw [mergeAdjacentSegments]
        exact mergeAux_chain rest a
  refine ⟨?_, hchain⟩
  intro s
  cases s with
  | nil => rfl
  | cons a rest =>
      have h := hchain (a :: rest)
      rw [mergeAdjacentSegments] at h ⊢
      obtain ⟨b, tl, heq, -⟩ := mergeAux_head_fmt rest a
      rw [heq] at h ⊢
      rw [mergeAdjacentSegments]
      exact mergeAux_of_chain tl b h

/-- C2 counterexample: on an `embedded-asset-block` with no resolvable
title, `richTextToPlainString` produces the line `[[image]]` (the `[image]`
fallback is substituted for the title inside the surrounding brackets),
not the bare `[image]` the claim states. -/
theorem C2_counterexample :
    richTextToPlainString (some untitledAssetDoc) = some "[[image]]" ∧
    "[[image]]" ≠ "[image]" :=
  ⟨by decide, by decide⟩

/-- C2 (amended): for a top-level `embedded-asset-block`,
`richTextToPlainString` produces the line `"[" ++ title ++ "]"` where
`title` is the localized (or plain) title field; when no title resolves,
the title falls back to the string `[image]`, so the produced line is
`[[image]]`. -/
theorem C2_asset_line :
    (∀ (data : NodeData) (content : List RNode) (t : String),
      jsStr ((data.target.bind Target.title).bind localizedLookup) = some t →
      plainLineOf (.elem "embedded-asset-block" data content) =
        some ["[" ++ t ++ "]"]) ∧
    (∀ (data : NodeData) (content : List RNode),
      jsStr ((data.target.bind Target.title).bind localizedLookup) = none →
      plainLineOf (.elem "embedded-asset-block" data content) =
        some ["[[image]]"]) ∧
    richTextToPlainString (some untitledAssetDoc) = some "[[image]]" := by
  refine ⟨?_, ?_, by decide⟩
  · intro data content t h
    simp [plainLineOf, plainAssetTitle, h]
  · intro data content h
    simp [plainLineOf, plainAssetTitle, h]

/-- Witness for C2: the amended statement evaluated on an asset with plain
title `Photo` and on an asset with no title. -/
theorem C2_asset_line_witness :
    plainLineOf (.elem "embedded-asset-block"
      { uri := none
        target := some { title := some (.plain "Photo"), file := none, sysId := none } }
      []) = some ["[Photo]"] ∧
    plainLineOf (.elem "embedded-asset-block" emptyData []) = some ["[[image]]"] := by
  constructor
  · have h := C2_asset_line.1
      { uri := none
        target := some { title := some (.plain "Photo"), file := none, sysId := none } }
      [] "Photo" (by decide)
    rw [h]
    decide
  · exact C2_asset_line.2.1 emptyData [] (by decide)

/-- C9: a top-level `embedded-asset-block` emits an `image` render block
iff the referenced asset's file URL resolves (else nothing is emitted);
the emitted title falls back to the literal `image`; a resolved URL is
prefixed with `https:`; and the specification's protocol-relative scenario
produces `{ type: image, url: https://images.example.net/photo.jpg,
title: My Photo }`. -/
theorem C9_embedded_asset_block :
    (∀ (data : NodeData) (content : List RNode) (url : String),
      assetImageUrl data = some url →
      planTopBlock (.elem "embedded-asset-block" data content) =
        some [RenderBlock.image url (assetTitle data)]) ∧
    (∀ (data : NodeData) (content : List RNode),
      assetImageUrl data = none →
      planTopBlock (.elem "embedded-asset-block" data content) = some []) ∧
    (∀ (data : NodeData) (raw : String),
      (data.target.bind Target.file).bind FileField.localizedUrl = some raw →
      raw ≠ "" →
      assetImageUrl data = some ("https:" ++ raw)) ∧
    (∀ data : NodeData,
      jsStr ((data.target.bind Target.title).bind localizedLookup) = none →
      assetTitle data = "image") ∧
    documentToRenderPlan scenarioAssetDoc =
      some [RenderBlock.image "https://images.example.net/photo.jpg" "My Photo"] := by
  refine ⟨?_, ?_, ?_, ?_, by decide⟩
  · intro data content url h
    simp [planTopBlock, h]
  · intro data content h
    simp [planTopBlock, h]
  · intro data raw h hne
    simp [assetImageUrl, jsStr, h, hne]
  · intro data h
    simp [assetTitle, h]

/-- Witness for C9: the emission rule evaluated on the specification's
scenario asset. -/
theorem C9_embedded_asset_block_witness :
    planTopBlock (.elem "embedded-asset-block"
      { uri := none
        target := some
          { title := some (.plain "My Photo")
            file := some (.plain (some "//images.example.net/photo.jpg"))
            sysId := none } } []) =
      some [RenderBlock.image "https://images.example.net/photo.jpg" "My Photo"] := by
  have h := C9_embedded_asset_block.1
    { uri := none
      target := some
        { title := some (.plain "My Photo")
          file := some (.plain (some "//images.example.net/photo.jpg"))
          sysId := none } } [] "https://images.example.net/photo.jpg" (by decide)
  rw [h]
  decide

/-- C10: a non-special top-level block emits a `text` render block exactly
when the walker returns at least one segment, even when every segment text
is empty: a document holding one paragraph with one empty text leaf yields
a plan with one text block holding one empty-text segment, while
`richTextToPlainString` on the same document yields the empty string. -/
theorem C10_text_block_emission :
    (∀ (nodeType : String) (data : NodeData) (content : List RNode)
        (segments : List Segment),
      (nodeType == "table") = false →
      (nodeType == "embedded-asset-block") = false →
      (nodeType == "embedded-entry-block") = false →
      (nodeType == "hr") = false →
      processBlock (.elem nodeType data content) DEFAULT_CONTEXT = some segments →
      planTopBlock (.elem nodeType data content) =
        some (if segments.length > 0 then
          [RenderBlock.text (mergeAdjacentSegments segments)] else [])) ∧
    documentToRenderPlan ⟨[plainParagraph ""]⟩ =
      some [RenderBlock.text
        [{ text := ""
           bold := false
           italic := false
           underline := false
           code := false
           headingLevel := 0
           listType := none
           listIndent := 0
           hyperlink := none }]] ∧
    richTextToPlainString (some ⟨[plainParagraph ""]⟩) = some "" := by
  refine ⟨?_, ?_, ?_⟩
  · intro nodeType data content segments h1 h2 h3 h4 h5
    simp [planTopBlock, h1, h2, h3, h4, h5]
  · simp [documentToRenderPlan, plainParagraph, planBlocksAux, planTopBlock, processBlock,
          collectSegmentsFromBlock, collectFromChildren, isHeadingType, isBlockNode,
          textNodeToSegment, hasMarks, DEFAULT_CONTEXT, emptyData, mergeAdjacentSegments,
          mergeAux]
  · simp [richTextToPlainString, plainParagraph, plainLinesAux, plainLineOf, processBlock,
          collectSegmentsFromBlock, collectFromChildren, isHeadingType, isBlockNode,
          textNodeToSegment, hasMarks, DEFAULT_CONTEXT, emptyData]
    decide

/-- Witness for C10: the emission rule evaluated on the
empty-paragraph scenario. -/
theorem C10_text_block_emission_witness :
    planTopBlock (.elem "paragraph" emptyData [.text "" []]) =
      some [RenderBlock.text
        [{ text := ""
           bold := false
           italic := false
           underline := false
           code := false
           headingLevel := 0
           listType := none
           listIndent := 0
           hyperlink := none }]] := by
  have hp : processBlock (.elem "paragraph" emptyData [.text "" []]) DEFAULT_CONTEXT =
      some
        [{ text := ""
           bold := false
           italic := false
           underline := false
           code := false
           headingLevel := 0
           listType := none
           listIndent := 0
           hyperlink := none }] := by
    simp [processBlock, collectSegmentsFromBlock, collectFromChildren, isHeadingType,
          isBlockNode, textNodeToSegment, hasMarks, DEFAULT_CONTEXT, emptyData]
  have h := C10_text_block_emission.1 "paragraph" emptyData [.text "" []] _
    (by decide) (by decide) (by decide) (by decide) hp
  rw [h]
  simp [mergeAdjacentSegments, mergeAux]


/-- The list branch of `processBlock`: a list block dispatches its children
to the list-item loop with the matching list kind. -/
theorem processBlock_list_eq (lt : ListType) (data : NodeData)
    (content : List RNode) (ctx : BlockContext) :
    processBlock (.elem (listNodeType lt) data content) ctx =
      processListItems content lt ctx := by
  cases lt <;> simp [processBlock, listNodeType, isHeadingType]

/-- A `list-item` child of a list has each of its content blocks walked
with the list context (`listType` set to the list kind, `listIndent`
bumped by one). -/
theorem processListItems_cons_item (cdata : NodeData) (ccontent rest : List RNode)
    (lt : ListType) (ctx : BlockContext) :
    processListItems (.elem "list-item" cdata ccontent :: rest) lt ctx =
      match processChildren ccontent
          { ctx with listType := some lt, listIndent := ctx.listIndent + 1 } with
      | some head =>
          match processListItems rest lt ctx with
          | some tail => some (head ++ tail)
          | none => none
      | none => none := by
  rw [processListItems]
  simp
  try rfl

/-- Walking a tower of single-item lists: the innermost paragraph's
segment carries the innermost list kind and an indent equal to the
nesting depth added to the incoming indent. -/
theorem nestedList_processBlock (kinds : List ListType) (k : ListType)
    (v : String) (ctx : BlockContext) :
    processBlock (nestedList (k :: kinds) (plainParagraph v)) ctx =
      some
        [{ text := v
           bold := false
           italic := false
           underline := false
           code := false
           headingLevel := ctx.headingLevel
           listType := some (kinds.getLastD k)
           listIndent := ctx.listIndent + kinds.length + 1
           hyperlink := none }] := by
  induction kinds generalizing k ctx with
  | nil =>
      rw [nestedList, nestedList, processBlock_list_eq]
      simp [processListItems, processChildren, processBlock, plainParagraph,
            collectSegmentsFromBlock, collectFromChildren, isHeadingType, isBlockNode,
            textNodeToSegment, hasMarks, emptyData]
  | cons k2 kinds ih =>
      rw [nestedList, processBlock_list_eq, processListItems_cons_item]
      rw [show (nestedList (k2 :: kinds) (plainParagraph v) :: ([] : List RNode)) =
        [nestedList (k2 :: kinds) (plainParagraph v)] from rfl]
      have hch : processChildren [nestedList (k2 :: kinds) (plainParagraph v)]
          { ctx with listType := some k, listIndent := ctx.listIndent + 1 } =
          some
            [{ text := v
               bold := false
               italic := false
               underline := false
               code := false
               headingLevel := ctx.headingLevel
               listType := some (kinds.getLastD k2)
               listIndent := ctx.listIndent + 1 + kinds.length + 1
               hyperlink := none }] := by
        rw [processChildren, ih]
        simp [processChildren]
      rw [hch]
      simp [processListItems, List.getLastD_cons]
      constructor
      · rw [List.getLast?_cons]
        simp [List.getLastD_eq_getLast?]
      · omega

/-- C7: a list block walks each `list-item` child's content with a context
whose `listType` matches the list kind and whose `listIndent` is the
parent's plus one; non-`list-item` children contribute no segments; hence
a list nested k levels deep inside list items yields segments with
`listIndent = k`, whatever the sequence of list kinds. -/
theorem C7_list_indent_accumulation :
    (∀ (data : NodeData) (content : List RNode) (ctx : BlockContext),
      processBlock (.elem "unordered-list" data content) ctx =
        processListItems content ListType.unordered ctx ∧
      processBlock (.elem "ordered-list" data content) ctx =
        processListItems content ListType.ordered ctx) ∧
    (∀ (cdata : NodeData) (ccontent rest : List RNode) (lt : ListType)
        (ctx : BlockContext),
      processListItems (.elem "list-item" cdata ccontent :: rest) lt ctx =
        match processChildren ccontent
            { ctx with listType := some lt, listIndent := ctx.listIndent + 1 } with
        | some head =>
            (match processListItems rest lt ctx with
             | some tail => some (head ++ tail)
             | none => none)
        | none => none) ∧
    (∀ (cty : String) (cdata : NodeData) (ccontent rest : List RNode)
        (lt : ListType) (ctx : BlockContext),
      (cty == "list-item") = false →
      processListItems (.elem cty cdata ccontent :: rest) lt ctx =
        processListItems rest lt ctx) ∧
    (∀ (kinds : List ListType) (k : ListType) (v : String),
      processBlock (nestedList (k :: kinds) (plainParagraph v)) DEFAULT_CONTEXT =
        some
          [{ text := v
             bold := false
             italic := false
             underline := false
             code := false
             headingLevel := 0
             listType := some (kinds.getLastD k)
             listIndent := (k :: kinds).length
             hyperlink := none }]) := by
  refine ⟨?_, ?_, ?_, ?_⟩
  · intro data content ctx
    exact ⟨processBlock_list_eq ListType.unordered data content ctx,
           processBlock_list_eq ListType.ordered data content ctx⟩
  · intro cdata ccontent rest lt ctx
    rw [processListItems]
    simp
    try rfl
  · intro cty cdata ccontent rest lt ctx h
    rw [processListItems]
    simp [h]
  · intro kinds k v
    rw [nestedList_processBlock]
    simp [DEFAULT_CONTEXT]

/-- Witness for C7: the skip rule evaluated on a paragraph child of a
list, and the nesting rule on an unordered list inside an ordered one. -/
theorem C7_list_indent_accumulation_witness :
    processListItems (.elem "paragraph" emptyData [] :: []) ListType.unordered
        DEFAULT_CONTEXT =
      processListItems [] ListType.unordered DEFAULT_CONTEXT ∧
    processBlock (nestedList [ListType.ordered, ListType.unordered]
        (plainParagraph "deep")) DEFAULT_CONTEXT =
      some
        [{ text := "deep"
           bold := false
           italic := false
           underline := false
           code := false
           headingLevel := 0
           listType := some ListType.unordered
           listIndent := 2
           hyperlink := none }] := by
  constructor
  · exact C7_list_indent_accumulation.2.2.1 "paragraph" emptyData [] []
      ListType.unordered DEFAULT_CONTEXT (by decide)
  · have h := C7_list_indent_accumulation.2.2.2 [ListType.unordered]
      ListType.ordered "deep"
    rw [h]
    decide


/-- Walking a paragraph that holds one unmarked text leaf yields the one
segment of that leaf under the given context. -/
theorem processBlock_plainParagraph (v : String) (ctx : BlockContext) :
    processBlock (plainParagraph v) ctx = some [textNodeToSegment v [] ctx] := by
  simp [plainParagraph, processBlock, collectSegmentsFromBlock, collectFromChildren,
        isHeadingType, isBlockNode, emptyData]

/-- `processChildren` on a single plain paragraph. -/
theorem processChildren_plainParagraph (v : String) (ctx : BlockContext) :
    processChildren [plainParagraph v] ctx = some [textNodeToSegment v [] ctx] := by
  rw [processChildren, processBlock_plainParagraph]
  simp [processChildren]

/-- The cell loop of `processTableToRows` computes, cellwise, the
specification's cell extraction, with `isHeader` the disjunction of the
header-cell test over the children. -/
theorem tableCellsAux_eq (cells : List RNode) :
    tableCellsAux cells =
      (traverseOpt specTableCell cells).map
        (fun cs => (cs, cells.any isHeaderCellNode)) := by
  induction cells with
  | nil => simp [tableCellsAux, traverseOpt]
  | cons cell rest ih =>
      cases cell with
      | text v marks => simp [tableCellsAux, traverseOpt, specTableCell]
      | elem cty cdata ccontent =>
          rw [tableCellsAux, traverseOpt]
          rw [show specTableCell (.elem cty cdata ccontent) =
            (processChildren ccontent DEFAULT_CONTEXT).map mergeAdjacentSegments
            from rfl]
          cases h : processChildren ccontent DEFAULT_CONTEXT with
          | none => simp
          | some segs =>
              simp only [Option.map_some]
              rw [ih]
              cases h2 : traverseOpt specTableCell rest with
              | none => simp
              | some cs => simp [isHeaderCellNode]

/-- The row loop of `processTableToRows` computes the specification's
row extraction over the `table-row` children in order. -/
theorem tableRowsAux_eq (rows : List RNode) :
    tableRowsAux rows = traverseOpt specTableRow (rows.filter isTableRowNode) := by
  induction rows with
  | nil => simp [tableRowsAux, traverseOpt]
  | cons row rest ih =>
      cases row with
      | text v marks => simpa [tableRowsAux, isTableRowNode] using ih
      | elem rty rdata rcontent =>
          rw [tableRowsAux]
          rcases hty : (rty == "table-row") with _ | _
          · simpa [List.filter_cons, isTableRowNode, hty] using ih
          · rw [show List.filter isTableRowNode
                (RNode.elem rty rdata rcontent :: rest) =
              RNode.elem rty rdata rcontent :: List.filter isTableRowNode rest by
                rw [List.filter_cons]
                simp [isTableRowNode, hty]]
            rw [traverseOpt]
            rw [show specTableRow (.elem rty rdata rcontent) =
              (traverseOpt specTableCell rcontent).map
                (fun cells => { cells := cells, isHeader := rcontent.any isHeaderCellNode })
              from rfl]
            rw [tableCellsAux_eq]
            cases h : traverseOpt specTableCell rcontent with
            | none => simp
            | some cs =>
                rw [ih]
                cases h2 : traverseOpt specTableRow (rest.filter isTableRowNode) with
                | none => simp
                | some tail => simp

/-- C8: the table extractor returns one row per `table-row` child in
source order, with `isHeader` true iff some direct cell child is a
`table-header-cell`; each cell is walked with the root formatting context
and merged independently, and cells keep their source order (stated as
equality with the specification's extraction, plus the specification's
header-and-data-rows scenario). -/
theorem C8_table_extractor :
    (∀ (ty : String) (data : NodeData) (content : List RNode),
      processTableToRows (.elem ty data content) = processTableToRowsSpec content) ∧
    processTableToRows scenarioTable =
      some
        [ { cells := [[textNodeToSegment "Name" [] DEFAULT_CONTEXT],
                      [textNodeToSegment "Age" [] DEFAULT_CONTEXT]]
            isHeader := true }
        , { cells := [[textNodeToSegment "Alice" [] DEFAULT_CONTEXT],
                      [textNodeToSegment "30" [] DEFAULT_CONTEXT]]
            isHeader := false } ] := by
  constructor
  · intro ty data content
    rw [show processTableToRows (.elem ty data content) = tableRowsAux content
      from rfl]
    rw [tableRowsAux_eq]
    rfl
  · have h1 : tableCellsAux
        [.elem "table-header-cell" emptyData [plainParagraph "Name"],
         .elem "table-header-cell" emptyData [plainParagraph "Age"]] =
        some ([[textNodeToSegment "Name" [] DEFAULT_CONTEXT],
               [textNodeToSegment "Age" [] DEFAULT_CONTEXT]], true) := by
      rw [tableCellsAux, processChildren_plainParagraph, tableCellsAux,
          processChildren_plainParagraph, tableCellsAux]
      simp [mergeAdjacentSegments, mergeAux]
    have h2 : tableCellsAux
        [.elem "table-cell" emptyData [plainParagraph "Alice"],
         .elem "table-cell" emptyData [plainParagraph "30"]] =
        some ([[textNodeToSegment "Alice" [] DEFAULT_CONTEXT],
               [textNodeToSegment "30" [] DEFAULT_CONTEXT]], false) := by
      rw [tableCellsAux, processChildren_plainParagraph, tableCellsAux,
          processChildren_plainParagraph, tableCellsAux]
      simp [mergeAdjacentSegments, mergeAux]
    simp only [scenarioTable, processTableToRows]
    rw [tableRowsAux, h1, tableRowsAux, h2, tableRowsAux]
    simp


mutual

/-- `processBlock` returns a result on every `processSafe` node. -/
theorem processBlock_safe (block : RNode) (ctx : BlockContext)
    (h : processSafe block = true) : (processBlock block ctx).isSome = true := by
  cases block with
  | text v marks => simp [processSafe] at h
  | elem ty d content =>
      simp only [processSafe] at h
      simp only [processBlock, collectSegmentsFromBlock]
      split_ifs at h ⊢ <;>
        first
          | exact collectFromChildren_safe content _ h
          | exact processChildren_safe content _ h
          | exact processListItems_safe content _ _ h
          | exact processTableRowsFlat_safe content _ h
termination_by 2 * sizeOf block + 1
decreasing_by all_goals (subst_vars; simp; try omega)

/-- The `collectSegmentsFromBlock` child loop returns a result on
`collectSafe` children. -/
theorem collectFromChildren_safe (children : List RNode) (ctx : BlockContext)
    (h : collectSafe children = true) :
    (collectFromChildren children ctx).isSome = true := by
  cases children with
  | nil => simp [collectFromChildren]
  | cons child rest =>
      cases child with
      | text v marks =>
          rw [collectSafe, Bool.and_eq_true] at h
          rw [collectFromChildren]
          cases h2 : collectFromChildren rest ctx with
          | none =>
              have := collectFromChildren_safe rest ctx h.2
              simp [h2] at this
          | some tail => simp
      | elem cty cdata ccontent =>
          rw [collectSafe, Bool.and_eq_true] at h
          rw [collectFromChildren]
          by_cases hb : isBlockNode cty
          · simp only [hb, Bool.not_true, Bool.false_eq_true, if_false] at h ⊢
            have h1 : (processBlock (.elem cty cdata ccontent) ctx).isSome = true :=
              processBlock_safe _ ctx h.1
            cases hp : processBlock (.elem cty cdata ccontent) ctx with
            | none => simp [hp] at h1
            | some head =>
                cases h2 : collectFromChildren rest ctx with
                | none =>
                    have := collectFromChildren_safe rest ctx h.2
                    simp [h2] at this
                | some tail => simp
          · simp only [hb, Bool.not_false, if_pos]
            cases h2 : collectFromChildren rest ctx with
            | none =>
                have := collectFromChildren_safe rest ctx h.2
                simp [h2] at this
            | some tail => simp
termination_by 2 * sizeOf children + 1
decreasing_by all_goals (subst_vars; simp; try omega)

/-- The blockquote/cell child loop returns a result on `allSafe`
children. -/
theorem processChildren_safe (children : List RNode) (ctx : BlockContext)
    (h : allSafe children = true) :
    (processChildren children ctx).isSome = true := by
  cases children with
  | nil => simp [processChildren]
  | cons child rest =>
      rw [allSafe, Bool.and_eq_true] at h
      rw [processChildren]
      have h1 := processBlock_safe child ctx h.1
      cases hp : processBlock child ctx with
      | none => simp [hp] at h1
      | some head =>
          have h2 := processChildren_safe rest ctx h.2
          cases hq : processChildren rest ctx with
          | none => simp [hq] at h2
          | some tail => simp
termination_by 2 * sizeOf children + 1
decreasing_by all_goals (subst_vars; simp; try omega)

/-- The list-item loop returns a result on `listItemsSafe` children. -/
theorem processListItems_safe (children : List RNode) (lt : ListType)
    (ctx : BlockContext) (h : listItemsSafe children = true) :
    (processListItems children lt ctx).isSome = true := by
  cases children with
  | nil => simp [processListItems]
  | cons child rest =>
      cases child with
      | text v marks =>
          rw [listItemsSafe, Bool.and_eq_true] at h
          rw [processListItems]
          exact processListItems_safe rest lt ctx h.2
      | elem cty cdata ccontent =>
          rw [listItemsSafe, Bool.and_eq_true] at h
          rw [processListItems]
          by_cases hli : (cty == "list-item") = true
          · simp only [hli, if_pos] at h ⊢
            have h1 := processChildren_safe ccontent
              { ctx with listType := some lt, listIndent := ctx.listIndent + 1 } h.1
            cases hp : processChildren ccontent
                { ctx with listType := some lt, listIndent := ctx.listIndent + 1 } with
            | none => simp [hp] at h1
            | some head =>
                have h2 := processListItems_safe rest lt ctx h.2
                cases hq : processListItems rest lt ctx with
                | none => simp [hq] at h2
                | some tail => simp
          · simp only [hli, Bool.false_eq_true, if_false] at h ⊢
            exact processListItems_safe rest lt ctx h.2
termination_by 2 * sizeOf children + 1
decreasing_by all_goals (subst_vars; simp; try omega)

/-- The flat table row loop returns a result on `flatRowsSafe`
children. -/
theorem processTableRowsFlat_safe (rows : List RNode) (ctx : BlockContext)
    (h : flatRowsSafe rows = true) :
    (processTableRowsFlat rows ctx).isSome = true := by
  cases rows with
  | nil => simp [processTableRowsFlat]
  | cons row rest =>
      cases row with
      | text v marks =>
          rw [flatRowsSafe, Bool.and_eq_true] at h
          rw [processTableRowsFlat]
          exact processTableRowsFlat_safe rest ctx h.2
      | elem rty rdata rcontent =>
          rw [flatRowsSafe, Bool.and_eq_true] at h
          rw [processTableRowsFlat]
          by_cases hr : (rty == "table-row") = true
          · simp only [hr, if_pos] at h ⊢
            have h1 := collectCellTexts_safe rcontent ctx h.1
            cases hp : collectCellTexts rcontent ctx with
            | none => simp [hp] at h1
            | some cellTexts =>
                have h2 := processTableRowsFlat_safe rest ctx h.2
                cases hq : processTableRowsFlat rest ctx with
                | none => simp [hq] at h2
                | some tail => simp
          · simp only [hr, Bool.false_eq_true, if_false] at h ⊢
            exact processTableRowsFlat_safe rest ctx h.2
termination_by 2 * sizeOf rows + 1
decreasing_by all_goals (subst_vars; simp; try omega)

/-- The flat table cell loop returns a result on `allSafe` cells. -/
theorem collectCellTexts_safe (cells : List RNode) (ctx : BlockContext)
    (h : allSafe cells = true) :
    (collectCellTexts cells ctx).isSome = true := by
  cases cells with
  | nil => simp [collectCellTexts]
  | cons cell rest =>
      rw [allSafe, Bool.and_eq_true] at h
      rw [collectCellTexts]
      have h1 := processBlock_safe cell ctx h.1
      cases hp : processBlock cell ctx with
      | none => simp [hp] at h1
      | some cellSegs =>
          have h2 := collectCellTexts_safe rest ctx h.2
          cases hq : collectCellTexts rest ctx with
          | none => simp [hq] at h2
          | some tail => simp
termination_by 2 * sizeOf cells + 1
decreasing_by all_goals (subst_vars; simp; try omega)

end

/-- The structured table cell loop returns a result when every cell is
`planCellSafe`. -/
theorem tableCellsAux_safe (cells : List RNode)
    (h : cells.all planCellSafe = true) : (tableCellsAux cells).isSome = true := by
  induction cells with
  | nil => simp [tableCellsAux]
  | cons cell rest ih =>
      rw [List.all_cons, Bool.and_eq_true] at h
      cases cell with
      | text v marks => simp [planCellSafe] at h
      | elem cty cdata ccontent =>
          rw [tableCellsAux]
          have h1 := processChildren_safe ccontent DEFAULT_CONTEXT
            (by simpa [planCellSafe] using h.1)
          cases hp : processChildren ccontent DEFAULT_CONTEXT with
          | none => simp [hp] at h1
          | some segs =>
              have h2 := ih h.2
              cases hq : tableCellsAux rest with
              | none => simp [hq] at h2
              | some pair => simp

/-- The structured table row loop returns a result when every child is
`planRowSafe`. -/
theorem tableRowsAux_safe (rows : List RNode)
    (h : rows.all planRowSafe = true) : (tableRowsAux rows).isSome = true := by
  induction rows with
  | nil => simp [tableRowsAux]
  | cons row rest ih =>
      rw [List.all_cons, Bool.and_eq_true] at h
      cases row with
      | text v marks =>
          rw [tableRowsAux]
          exact ih h.2
      | elem rty rdata rcontent =>
          rw [tableRowsAux]
          by_cases hr : (rty == "table-row") = true
          · simp only [hr, if_pos]
            have h1 := tableCellsAux_safe rcontent
              (by simpa [planRowSafe, hr] using h.1)
            cases hp : tableCellsAux rcontent with
            | none => simp [hp] at h1
            | some pair =>
                have h2 := ih h.2
                cases hq : tableRowsAux rest with
                | none => simp [hq] at h2
                | some tail =>
                    cases pair with
                    | mk cells isHeader => simp
          · simp only [hr, Bool.false_eq_true, if_false]
            exact ih h.2

/-- The plan assembler's per-block step returns a result on every
`topBlockSafe` node. -/
theorem planTopBlock_safe (top : RNode) (h : topBlockSafe top = true) :
    (planTopBlock top).isSome = true := by
  cases top with
  | text v marks => simp [topBlockSafe] at h
  | elem ty d content =>
      rw [topBlockSafe] at h
      rw [planTopBlock]
      rcases h1 : (ty == "table") with _ | _
      · rcases h2 : (ty == "embedded-asset-block") with _ | _
        · rcases h3 : (ty == "embedded-entry-block") with _ | _
          · rcases h4 : (ty == "hr") with _ | _
            · simp only [h1, h2, h3, h4, Bool.false_eq_true, if_false,
                Bool.or_false] at h ⊢
              have h5 := processBlock_safe _ DEFAULT_CONTEXT h
              cases hp : processBlock (.elem ty d content) DEFAULT_CONTEXT with
              | none => simp [hp] at h5
              | some segs => simp
            · simp [h1, h2, h3, h4]
          · simp [h1, h2, h3]
        · simp [h1, h2]
      · simp only [h1, if_pos] at h ⊢
        rw [Bool.and_eq_true] at h
        rw [show processTableToRows (.elem ty d content) = tableRowsAux content
          from rfl]
        have h2 := tableRowsAux_safe content h.1
        cases hq : tableRowsAux content with
        | none => simp [hq] at h2
        | some rows => simp

/-- The plain-text assembler's per-block step returns a result on every
`topBlockSafe` node. -/
theorem plainLineOf_safe (top : RNode) (h : topBlockSafe top = true) :
    (plainLineOf top).isSome = true := by
  cases top with
  | text v marks => simp [topBlockSafe] at h
  | elem ty d content =>
      rw [plainLineOf]
      rcases h4 : (ty == "hr") with _ | _
      · rcases h2 : (ty == "embedded-asset-block") with _ | _
        · rcases h3 : (ty == "embedded-entry-block") with _ | _
          · simp only [h4, h2, h3, Bool.false_eq_true, if_false]
            have hsafe : processSafe (.elem ty d content) = true := by
              rw [topBlockSafe] at h
              rcases h1 : (ty == "table") with _ | _
              · simp only [h1, h2, h3, h4, Bool.false_eq_true, if_false,
                  Bool.or_false] at h
                exact h
              · simp only [h1, if_pos, Bool.and_eq_true] at h
                exact h.2
            have h5 := processBlock_safe _ DEFAULT_CONTEXT hsafe
            cases hp : processBlock (.elem ty d content) DEFAULT_CONTEXT with
            | none => simp [hp] at h5
            | some segs => simp
          · simp [h4, h2, h3]
        · simp [h4, h2]
      · simp [h4]

/-- The plan assembler's loop returns a result when every top-level node
is `topBlockSafe`. -/
theorem planBlocksAux_safe (tops : List RNode)
    (h : tops.all topBlockSafe = true) : (planBlocksAux tops).isSome = true := by
  induction tops with
  | nil => simp [planBlocksAux]
  | cons top rest ih =>
      rw [List.all_cons, Bool.and_eq_true] at h
      rw [planBlocksAux]
      have h1 := planTopBlock_safe top h.1
      cases hp : planTopBlock top with
      | none => simp [hp] at h1
      | some head =>
          have h2 := ih h.2
          cases hq : planBlocksAux rest with
          | none => simp [hq] at h2
          | some tail => simp

/-- The plain-text assembler's loop returns a result when every top-level
node is `topBlockSafe`. -/
theorem plainLinesAux_safe (tops : List RNode)
    (h : tops.all topBlockSafe = true) : (plainLinesAux tops).isSome = true := by
  induction tops with
  | nil => simp [plainLinesAux]
  | cons top rest ih =>
      rw [List.all_cons, Bool.and_eq_true] at h
      rw [plainLinesAux]
      have h1 := plainLineOf_safe top h.1
      cases hp : plainLineOf top with
      | none => simp [hp] at h1
      | some head =>
          have h2 := ih h.2
          cases hq : plainLinesAux rest with
          | none => simp [hq] at h2
          | some tail => simp

/-- C1 (amended): `documentToRenderPlan` and `richTextToPlainString`
terminate normally and return a result for every document in which no
text leaf (a node without a `content` member) occupies a position that
the walker recurses into as a block — that is, every top-level node is
`topBlockSafe`. A text leaf directly under a blockquote, inside a
list-item's content, or in a table cell position reaches the generic
fallback's iteration of `undefined` and fails (see the
counterexample). -/
theorem C1_safety (doc : RichTextDocument)
    (h : doc.content.all topBlockSafe = true) :
    (documentToRenderPlan doc).isSome = true ∧
    (richTextToPlainString (some doc)).isSome = true := by
  constructor
  · rw [documentToRenderPlan]
    exact planBlocksAux_safe doc.content h
  · rw [richTextToPlainString]
    have h1 := plainLinesAux_safe doc.content h
    cases hp : plainLinesAux doc.content with
    | none => simp [hp] at h1
    | some lines => simp

/-- `processBlock` on a text leaf falls through every dispatch branch to
the generic fallback, whose iteration of the leaf's `undefined` `content`
is the error state (`none`). -/
theorem processBlock_textLeaf (v : String) (marks : List String)
    (ctx : BlockContext) : processBlock (.text v marks) ctx = none := by
  rw [processBlock, collectSegmentsFromBlock]

/-- A blockquote with a direct text child reaches the error state: the
blockquote branch recurses into the text leaf via `processBlock`. -/
theorem crash_processBlock :
    processBlock (.elem "blockquote" emptyData [.text "hi" []])
      DEFAULT_CONTEXT = none := by
  rw [processBlock]
  simp [isHeadingType]
  rw [processChildren, processBlock_textLeaf]

/-- C1 counterexample: on a document whose single blockquote holds a
direct text leaf — a node arrangement the data model admits — both
entry points reach the error state modelled by `none` (a TypeError in
the TypeScript source), so neither returns a result. -/
theorem C1_counterexample :
    documentToRenderPlan crashDoc = none ∧
    richTextToPlainString (some crashDoc) = none := by
  constructor
  · rw [documentToRenderPlan]
    rw [show crashDoc.content =
      [.elem "blockquote" emptyData [.text "hi" []]] from rfl]
    rw [planBlocksAux]
    rw [show planTopBlock (.elem "blockquote" emptyData [.text "hi" []]) =
      (match processBlock (.elem "blockquote" emptyData [.text "hi" []])
          DEFAULT_CONTEXT with
       | some segments =>
          some (if segments.length > 0 then
            [RenderBlock.text (mergeAdjacentSegments segments)] else [])
       | none => none) by rw [planTopBlock]; simp]
    rw [crash_processBlock]
  · rw [richTextToPlainString]
    rw [show crashDoc.content =
      [.elem "blockquote" emptyData [.text "hi" []]] from rfl]
    rw [plainLinesAux]
    rw [show plainLineOf (.elem "blockquote" emptyData [.text "hi" []]) =
      (match processBlock (.elem "blockquote" emptyData [.text "hi" []])
          DEFAULT_CONTEXT with
       | some segments =>
          some (if String.join (segments.map Segment.text) = "" then []
            else [String.join (segments.map Segment.text)])
       | none => none) by rw [plainLineOf]; simp]
    rw [crash_processBlock]

/-- A plain paragraph is a safe block for the walker. -/
theorem processSafe_plainParagraph (v : String) :
    processSafe (plainParagraph v) = true := by
  rw [show plainParagraph v = .elem "paragraph" emptyData [.text v []] from rfl]
  rw [processSafe]
  simp [isHeadingType]
  rw [collectSafe]
  simp [collectSafe]

/-- A blockquote holding one plain paragraph is a safe top-level node. -/
theorem blockquote_topSafe :
    topBlockSafe (.elem "blockquote" emptyData [plainParagraph "q"]) = true := by
  rw [topBlockSafe]
  simp
  rw [processSafe]
  simp [isHeadingType]
  rw [allSafe, processSafe_plainParagraph]
  simp [allSafe]

/-- Witness for C1: the amended safety statement evaluated on a concrete
document holding a blockquote with a paragraph. -/
theorem C1_safety_witness :
    ([.elem "blockquote" emptyData [plainParagraph "q"]] :
        List RNode).all topBlockSafe = true ∧
    (documentToRenderPlan
      ⟨[.elem "blockquote" emptyData [plainParagraph "q"]]⟩).isSome = true ∧
    (richTextToPlainString
      (some ⟨[.elem "blockquote" emptyData [plainParagraph "q"]]⟩)).isSome = true := by
  have hsafe : ([.elem "blockquote" emptyData [plainParagraph "q"]] :
      List RNode).all topBlockSafe = true := by
    simp [blockquote_topSafe]
  have h := C1_safety ⟨[.elem "blockquote" emptyData [plainParagraph "q"]]⟩ hsafe
  exact ⟨hsafe, h.1, h.2⟩


/-- Every segment the inline resolver emits satisfies a predicate that is
closed under the inline constructions (text leaf, hyperlink-modified text
leaf, entry placeholder). -/
theorem collectSegmentsFromInline_inv (D : SegInv) (H : SegInvHyps D)
    (nodeType : String) (d : NodeData) (content : List RNode)
    (ctx : BlockContext) (hQ : D.Q ctx) :
    ∀ s ∈ collectSegmentsFromInline nodeType d content ctx, D.P s := by
  intro s hs
  simp only [collectSegmentsFromInline] at hs
  rcases he : (nodeType == "embedded-entry-inline") with _ | _
  · rw [he] at hs
    simp only [Bool.false_eq_true, if_false, List.mem_filterMap] at hs
    obtain ⟨child, hmem, hf⟩ := hs
    cases child with
    | text v marks =>
        cases hhref : (if (nodeType == "hyperlink" || nodeType == "entry-hyperlink" ||
            nodeType == "asset-hyperlink") = true then resolveHref d else none) with
        | none =>
            rw [hhref] at hf
            simp at hf
            subst hf
            exact H.hText v marks ctx hQ
        | some u =>
            rw [hhref] at hf
            simp at hf
            subst hf
            exact H.hLink _ u (H.hText v marks ctx hQ)
    | elem a b c => simp at hf
  · rw [he] at hs
    simp only [if_pos, List.mem_append, List.mem_filterMap,
      List.mem_singleton] at hs
    rcases hs with ⟨child, hmem, hf⟩ | rfl
    · cases child with
      | text v marks =>
          cases hhref : (if (nodeType == "hyperlink" || nodeType == "entry-hyperlink" ||
              nodeType == "asset-hyperlink") = true then resolveHref d else none) with
          | none =>
              rw [hhref] at hf
              simp at hf
              subst hf
              exact H.hText v marks ctx hQ
          | some u =>
              rw [hhref] at hf
              simp at hf
              subst hf
              exact H.hLink _ u (H.hText v marks ctx hQ)
      | elem a b c => simp at hf
    · exact H.hEntry d ctx hQ

mutual

/-- Walker invariant: under the closure hypotheses, every segment
`processBlock` emits from a restricted tree under an admissible context
satisfies the segment predicate. -/
theorem processBlock_inv (D : SegInv) (H : SegInvHyps D) (block : RNode)
    (ctx : BlockContext) (hN : D.N block = true) (hQ : D.Q ctx)
    (segs : List Segment) (h : processBlock block ctx = some segs) :
    ∀ s ∈ segs, D.P s := by
  cases block with
  | text v marks => simp [processBlock, collectSegmentsFromBlock] at h
  | elem ty d content =>
      have hch : ∀ c ∈ content, D.N c = true := H.hHered ty d content hN
      simp only [processBlock, collectSegmentsFromBlock] at h
      split_ifs at h with h1 h2 h3 h4 h5 h6 h7
      · exact collectFromChildren_inv D H content _ hch
          (H.hHeading ty d content ctx h1 hN hQ) segs h
      · exact collectFromChildren_inv D H content ctx hch hQ segs h
      · exact processChildren_inv D H content _ hch (H.hQuote ctx hQ) segs h
      · exact processListItems_inv D H content _ ctx hch hQ segs h
      · exact processListItems_inv D H content _ ctx hch hQ segs h
      · exact processTableRowsFlat_inv D H content ctx segs h
      · exact processChildren_inv D H content ctx hch hQ segs h
      · exact collectFromChildren_inv D H content ctx hch hQ segs h
termination_by 2 * sizeOf block + 1
decreasing_by all_goals (subst_vars; simp; try omega)

/-- Walker invariant for the `collectSegmentsFromBlock` child loop. -/
theorem collectFromChildren_inv (D : SegInv) (H : SegInvHyps D)
    (children : List RNode) (ctx : BlockContext)
    (hN : ∀ c ∈ children, D.N c = true) (hQ : D.Q ctx)
    (segs : List Segment) (h : collectFromChildren children ctx = some segs) :
    ∀ s ∈ segs, D.P s := by
  cases children with
  | nil =>
      rw [collectFromChildren] at h
      simp at h
      subst h
      simp
  | cons child rest =>
      have hrest : ∀ c ∈ rest, D.N c = true := fun c hc => hN c (by simp [hc])
      cases child with
      | text v marks =>
          rw [collectFromChildren] at h
          cases h2 : collectFromChildren rest ctx with
          | none => rw [h2] at h; simp at h
          | some tail =>
              rw [h2] at h
              simp at h
              subst h
              intro s hs
              rcases List.mem_cons.mp hs with rfl | hs'
              · exact H.hText v marks ctx hQ
              · exact collectFromChildren_inv D H rest ctx hrest hQ tail h2 s hs'
      | elem cty cdata ccontent =>
          rw [collectFromChildren] at h
          rcases hb : isBlockNode cty with _ | _
          · rw [hb] at h
            simp only [Bool.not_false, if_pos] at h
            cases h2 : collectFromChildren rest ctx with
            | none => rw [h2] at h; simp at h
            | some tail =>
                rw [h2] at h
                simp at h
                subst h
                intro s hs
                rcases List.mem_append.mp hs with hs' | hs'
                · exact collectSegmentsFromInline_inv D H cty cdata ccontent ctx hQ s hs'
                · exact collectFromChildren_inv D H rest ctx hrest hQ tail h2 s hs'
          · rw [hb] at h
            simp only [Bool.not_true, Bool.false_eq_true, if_false] at h
            cases hp : processBlock (.elem cty cdata ccontent) ctx with
            | none => rw [hp] at h; simp at h
            | some head =>
                rw [hp] at h
                cases h2 : collectFromChildren rest ctx with
                | none => rw [h2] at h; simp at h
                | some tail =>
                    rw [h2] at h
                    simp at h
                    subst h
                    intro s hs
                    rcases List.mem_append.mp hs with hs' | hs'
                    · exact processBlock_inv D H _ ctx (hN _ (by simp)) hQ head hp s hs'
                    · exact collectFromChildren_inv D H rest ctx hrest hQ tail h2 s hs'
termination_by 2 * sizeOf children + 1
decreasing_by all_goals (subst_vars; simp; try omega)

/-- Walker invariant for the blockquote/cell child loop. -/
theorem processChildren_inv (D : SegInv) (H : SegInvHyps D)
    (children : List RNode) (ctx : BlockContext)
    (hN : ∀ c ∈ children, D.N c = true) (hQ : D.Q ctx)
    (segs : List Segment) (h : processChildren children ctx = some segs) :
    ∀ s ∈ segs, D.P s := by
  cases children with
  | nil =>
      rw [processChildren] at h
      simp at h
      subst h
      simp
  | cons child rest =>
      have hrest : ∀ c ∈ rest, D.N c = true := fun c hc => hN c (by simp [hc])
      rw [processChildren] at h
      cases hp : processBlock child ctx with
      | none => rw [hp] at h; simp at h
      | some head =>
          rw [hp] at h
          cases h2 : processChildren rest ctx with
          | none => rw [h2] at h; simp at h
          | some tail =>
              rw [h2] at h
              simp at h
              subst h
              intro s hs
              rcases List.mem_append.mp hs with hs' | hs'
              · exact processBlock_inv D H child ctx (hN _ (by simp)) hQ head hp s hs'
              · exact processChildren_inv D H rest ctx hrest hQ tail h2 s hs'
termination_by 2 * sizeOf children + 1
decreasing_by all_goals (subst_vars; simp; try omega)

/-- Walker invariant for the list-item loop. -/
theorem processListItems_inv (D : SegInv) (H : SegInvHyps D)
    (children : List RNode) (lt : ListType) (ctx : BlockContext)
    (hN : ∀ c ∈ children, D.N c = true) (hQ : D.Q ctx)
    (segs : List Segment) (h : processListItems children lt ctx = some segs) :
    ∀ s ∈ segs, D.P s := by
  cases children with
  | nil =>
      rw [processListItems] at h
      simp at h
      subst h
      simp
  | cons child rest =>
      have hrest : ∀ c ∈ rest, D.N c = true := fun c hc => hN c (by simp [hc])
      cases child with
      | text v marks =>
          rw [processListItems] at h
          exact processListItems_inv D H rest lt ctx hrest hQ segs h
      | elem cty cdata ccontent =>
          rw [processListItems] at h
          rcases hli : (cty == "list-item") with _ | _
          · rw [hli] at h
            simp only [Bool.false_eq_true, if_false] at h
            exact processListItems_inv D H rest lt ctx hrest hQ segs h
          · rw [hli] at h
            simp only [if_pos] at h
            have hcc : ∀ c ∈ ccontent, D.N c = true :=
              H.hHered cty cdata ccontent (hN _ (by simp))
            cases hp : processChildren ccontent
                { ctx with listType := some lt, listIndent := ctx.listIndent + 1 } with
            | none => rw [hp] at h; simp at h
            | some head =>
                rw [hp] at h
                cases h2 : processListItems rest lt ctx with
                | none => rw [h2] at h; simp at h
                | some tail =>
                    rw [h2] at h
                    simp at h
                    subst h
                    intro s hs
                    rcases List.mem_append.mp hs with hs' | hs'
                    · exact processChildren_inv D H ccontent _ hcc
                        (H.hList ctx lt hQ) head hp s hs'
                    · exact processListItems_inv D H rest lt ctx hrest hQ tail h2 s hs'
termination_by 2 * sizeOf children + 1
decreasing_by all_goals (subst_vars; simp; try omega)

/-- Walker invariant for the flat table row loop (every emitted segment is
a flat row segment). -/
theorem processTableRowsFlat_inv (D : SegInv) (H : SegInvHyps D)
    (rows : List RNode) (ctx : BlockContext)
    (segs : List Segment) (h : processTableRowsFlat rows ctx = some segs) :
    ∀ s ∈ segs, D.P s := by
  cases rows with
  | nil =>
      rw [processTableRowsFlat] at h
      simp at h
      subst h
      simp
  | cons row rest =>
      cases row with
      | text v marks =>
          rw [processTableRowsFlat] at h
          exact processTableRowsFlat_inv D H rest ctx segs h
      | elem rty rdata rcontent =>
          rw [processTableRowsFlat] at h
          rcases hr : (rty == "table-row") with _ | _
          · rw [hr] at h
            simp only [Bool.false_eq_true, if_false] at h
            exact processTableRowsFlat_inv D H rest ctx segs h
          · rw [hr] at h
            simp only [if_pos] at h
            cases hp : collectCellTexts rcontent ctx with
            | none => rw [hp] at h; simp at h
            | some cellTexts =>
                rw [hp] at h
                cases h2 : processTableRowsFlat rest ctx with
                | none => rw [h2] at h; simp at h
                | some tail =>
                    rw [h2] at h
                    simp at h
                    subst h
                    intro s hs
                    rcases List.mem_cons.mp hs with rfl | hs'
                    · exact H.hFlat _
                    · exact processTableRowsFlat_inv D H rest ctx tail h2 s hs'
termination_by 2 * sizeOf rows + 1
decreasing_by all_goals (subst_vars; simp; try omega)

end

/-- Membership form of `noHeadingList`. -/
theorem noHeadingList_mem (l : List RNode) (h : noHeadingList l = true) :
    ∀ c ∈ l, noHeading c = true := by
  induction l with
  | nil => simp
  | cons c rest ih =>
      rw [noHeadingList, Bool.and_eq_true] at h
      intro x hx
      rcases List.mem_cons.mp hx with rfl | hx'
      · exact h.1
      · exact ih h.2 x hx'

/-- The hyperlink-forces-underline predicate satisfies the walker closure
hypotheses: every directly constructed segment either has no hyperlink or
has `underline` forced `true`. -/
theorem hyperlinkUnderlineInv_hyps : SegInvHyps hyperlinkUnderlineInv := by
  constructor
  · intro v marks ctx _
    simp [hyperlinkUnderlineInv, textNodeToSegment]
  · intro seg u _
    simp [hyperlinkUnderlineInv]
  · intro d ctx _
    simp [hyperlinkUnderlineInv]
  · intro t
    simp [hyperlinkUnderlineInv]
  · intro ty d content ctx _ _ _
    trivial
  · intro ctx _
    trivial
  · intro ctx lt _
    trivial
  · intro ty d content _ c _
    rfl

/-- The merge scan preserves any segment predicate that is closed under
replacing a segment's text. -/
theorem mergeAux_preserves (P : Segment → Prop)
    (htext : ∀ (a : Segment) (t : String), P a → P { a with text := t })
    (rest : List Segment) (prev : Segment) (hp : P prev)
    (hr : ∀ x ∈ rest, P x) : ∀ s ∈ mergeAux prev rest, P s := by
  induction rest generalizing prev with
  | nil =>
      intro s hs
      rw [mergeAux] at hs
      simp at hs
      subst hs
      exact hp
  | cons curr rest ih =>
      rw [mergeAux]
      split
      · exact ih _ (htext prev _ hp) (fun x hx => hr x (by simp [hx]))
      · intro s hs
        rcases List.mem_cons.mp hs with rfl | hs'
        · exact hp
        · exact ih curr (hr curr (by simp)) (fun x hx => hr x (by simp [hx])) s hs'

/-- `mergeAdjacentSegments` preserves any segment predicate that is closed
under replacing a segment's text. -/
theorem mergeAdjacentSegments_preserves (P : Segment → Prop)
    (htext : ∀ (a : Segment) (t : String), P a → P { a with text := t })
    (segs : List Segment) (h : ∀ x ∈ segs, P x) :
    ∀ s ∈ mergeAdjacentSegments segs, P s := by
  cases segs with
  | nil => simp [mergeAdjacentSegments]
  | cons a rest =>
      rw [mergeAdjacentSegments]
      exact mergeAux_preserves P htext rest a (h a (by simp))
        (fun x hx => h x (by simp [hx]))

/-- Every segment `processBlock` returns satisfies
hyperlink-forces-underline. -/
theorem processBlock_hyper (b : RNode) (ctx : BlockContext) (segs : List Segment)
    (h : processBlock b ctx = some segs) :
    ∀ s ∈ segs, s.hyperlink.isSome = true → s.underline = true :=
  processBlock_inv hyperlinkUnderlineInv hyperlinkUnderlineInv_hyps b ctx rfl
    trivial segs h

/-- Every segment the blockquote/cell loop returns satisfies
hyperlink-forces-underline. -/
theorem processChildren_hyper (l : List RNode) (ctx : BlockContext)
    (segs : List Segment) (h : processChildren l ctx = some segs) :
    ∀ s ∈ segs, s.hyperlink.isSome = true → s.underline = true :=
  processChildren_inv hyperlinkUnderlineInv hyperlinkUnderlineInv_hyps l ctx
    (fun _ _ => rfl) trivial segs h

/-- Every cell segment of the structured table cell loop satisfies
hyperlink-forces-underline. -/
theorem tableCellsAux_hyper (cells : List RNode)
    (out : List (List Segment) × Bool) (h : tableCellsAux cells = some out) :
    ∀ cell ∈ out.1, ∀ s ∈ cell, s.hyperlink.isSome = true → s.underline = true := by
  induction cells generalizing out with
  | nil =>
      rw [tableCellsAux] at h
      simp at h
      subst h
      simp
  | cons cell rest ih =>
      cases cell with
      | text v marks => rw [tableCellsAux] at h; simp at h
      | elem cty cdata ccontent =>
          rw [tableCellsAux] at h
          cases hp : processChildren ccontent DEFAULT_CONTEXT with
          | none => rw [hp] at h; simp at h
          | some cellSegments =>
              rw [hp] at h
              cases hq : tableCellsAux rest with
              | none => rw [hq] at h; simp at h
              | some pair =>
                  rw [hq] at h
                  simp at h
                  subst h
                  intro cell hmem
                  rcases List.mem_cons.mp hmem with rfl | hmem'
                  · exact mergeAdjacentSegments_preserves _
                      (fun a t ha => ha) cellSegments
                      (processChildren_hyper ccontent DEFAULT_CONTEXT cellSegments hp)
                  · exact ih pair hq cell hmem'

/-- Every cell segment of every extracted table row satisfies
hyperlink-forces-underline. -/
theorem tableRowsAux_hyper (rows : List RNode) (out : List TableRow)
    (h : tableRowsAux rows = some out) :
    ∀ r ∈ out, ∀ cell ∈ r.cells, ∀ s ∈ cell,
      s.hyperlink.isSome = true → s.underline = true := by
  induction rows generalizing out with
  | nil =>
      rw [tableRowsAux] at h
      simp at h
      subst h
      simp
  | cons row rest ih =>
      cases row with
      | text v marks =>
          rw [tableRowsAux] at h
          exact ih out h
      | elem rty rdata rcontent =>
          rw [tableRowsAux] at h
          rcases hr : (rty == "table-row") with _ | _
          · rw [hr] at h
            simp only [Bool.false_eq_true, if_false] at h
            exact ih out h
          · rw [hr] at h
            simp only [if_pos] at h
            cases hc : tableCellsAux rcontent with
            | none => rw [hc] at h; simp at h
            | some pair =>
                rw [hc] at h
                cases hq : tableRowsAux rest with
                | none => rw [hq] at h; simp at h
                | some tail =>
                    rw [hq] at h
                    simp at h
                    subst h
                    intro r hmem
                    rcases List.mem_cons.mp hmem with rfl | hmem'
                    · exact tableCellsAux_hyper rcontent pair hc
                    · exact ih tail hq r hmem'

/-- Every segment of every render block a top-level node contributes
satisfies hyperlink-forces-underline. -/
theorem planTopBlock_hyper (top : RNode) (bs : List RenderBlock)
    (h : planTopBlock top = some bs) :
    ∀ b ∈ bs, ∀ s ∈ RenderBlock.allSegments b,
      s.hyperlink.isSome = true → s.underline = true := by
  cases top with
  | text v marks =>
      rw [planTopBlock] at h
      cases hp : processBlock (.text v marks) DEFAULT_CONTEXT with
      | none => rw [hp] at h; simp at h
      | some segments =>
          rw [hp] at h
          simp at h
          subst h
          intro b hb
          split at hb
          · rcases List.mem_singleton.mp hb with rfl
            exact mergeAdjacentSegments_preserves _ (fun a t ha => ha) segments
              (processBlock_hyper _ _ segments hp)
          · simp at hb
  | elem ty d content =>
      rw [planTopBlock] at h
      rcases h1 : (ty == "table") with _ | _
      · rcases h2 : (ty == "embedded-asset-block") with _ | _
        · rcases h3 : (ty == "embedded-entry-block") with _ | _
          · rcases h4 : (ty == "hr") with _ | _
            · simp only [h1, h2, h3, h4, Bool.false_eq_true, if_false] at h
              cases hp : processBlock (.elem ty d content) DEFAULT_CONTEXT with
              | none => rw [hp] at h; simp at h
              | some segments =>
                  rw [hp] at h
                  simp at h
                  subst h
                  intro b hb
                  split at hb
                  · rcases List.mem_singleton.mp hb with rfl
                    exact mergeAdjacentSegments_preserves _ (fun a t ha => ha)
                      segments (processBlock_hyper _ _ segments hp)
                  · simp at hb
            · simp only [h1, h2, h3, h4, Bool.false_eq_true, if_false, if_pos] at h
              rw [Option.some_inj] at h
              subst h
              intro b hb
              rcases List.mem_singleton.mp hb with rfl
              simp [RenderBlock.allSegments]
          · simp only [h1, h2, h3, Bool.false_eq_true, if_false, if_pos] at h
            rw [Option.some_inj] at h
            subst h
            intro b hb
            rcases List.mem_singleton.mp hb with rfl
            intro s hs
            rcases List.mem_singleton.mp hs with rfl
            simp [embeddedEntrySegment]
        · simp only [h1, h2, Bool.false_eq_true, if_false, if_pos] at h
          rw [Option.some_inj] at h
          subst h
          intro b hb
          split at hb
          · rcases List.mem_singleton.mp hb with rfl
            simp [RenderBlock.allSegments]
          · simp at hb
      · simp only [h1, if_pos] at h
        cases hq : processTableToRows (.elem ty d content) with
        | none => rw [hq] at h; simp at h
        | some rows =>
            rw [hq] at h
            simp at h
            subst h
            intro b hb
            split at hb
            · rcases List.mem_singleton.mp hb with rfl
              intro s hs
              simp only [RenderBlock.allSegments, List.mem_flatten,
                List.mem_map] at hs
              obtain ⟨cells, ⟨r, hr, rfl⟩, hs'⟩ := hs
              obtain ⟨cell, hcell, hscell⟩ := List.mem_flatten.mp hs'
              have := tableRowsAux_hyper content rows hq r hr cell hcell s hscell
              exact this
            · simp at hb

/-- Every segment of the assembled plan satisfies
hyperlink-forces-underline. -/
theorem planBlocksAux_hyper (tops : List RNode) (bs : List RenderBlock)
    (h : planBlocksAux tops = some bs) :
    ∀ b ∈ bs, ∀ s ∈ RenderBlock.allSegments b,
      s.hyperlink.isSome = true → s.underline = true := by
  induction tops generalizing bs with
  | nil =>
      rw [planBlocksAux] at h
      simp at h
      subst h
      simp
  | cons top rest ih =>
      rw [planBlocksAux] at h
      cases hp : planTopBlock top with
      | none => rw [hp] at h; simp at h
      | some head =>
          rw [hp] at h
          cases hq : planBlocksAux rest with
          | none => rw [hq] at h; simp at h
          | some tail =>
              rw [hq] at h
              simp at h
              subst h
              intro b hb
              rcases List.mem_append.mp hb with hb' | hb'
              · exact planTopBlock_hyper top head hp b hb'
              · exact ih tail hq b hb'

/-- C3: in every render plan, every segment with a non-null hyperlink has
`underline = true` (inside text blocks and inside table rows' cells); and
whenever an inline hyperlink node resolves to a URL, every segment emitted
for its text children carries that URL as `hyperlink` with `underline`
forced `true`, whatever marks the text leaves carried. -/
theorem C3_hyperlink_forces_underline :
    (∀ (doc : RichTextDocument) (blocks : List RenderBlock),
      documentToRenderPlan doc = some blocks →
      ∀ b ∈ blocks, ∀ s ∈ RenderBlock.allSegments b,
        s.hyperlink.isSome = true → s.underline = true) ∧
    (∀ (nodeType : String) (d : NodeData) (content : List RNode)
        (ctx : BlockContext) (u : String),
      (nodeType == "hyperlink" || nodeType == "entry-hyperlink" ||
        nodeType == "asset-hyperlink") = true →
      resolveHref d = some u →
      ∀ s ∈ collectSegmentsFromInline nodeType d content ctx,
        s.hyperlink = some u ∧ s.underline = true) := by
  constructor
  · intro doc blocks h
    rw [documentToRenderPlan] at h
    exact planBlocksAux_hyper doc.content blocks h
  · intro nodeType d content ctx u hvar hhref s hs
    have hentry : (nodeType == "embedded-entry-inline") = false := by
      rcases h1 : (nodeType == "hyperlink") with _ | _
      · rcases h2 : (nodeType == "entry-hyperlink") with _ | _
        · rcases h3 : (nodeType == "asset-hyperlink") with _ | _
          · rw [h1, h2, h3] at hvar
            simp at hvar
          · have : nodeType = "asset-hyperlink" := by
              exact beq_iff_eq.mp h3
            subst this
            rfl
        · have : nodeType = "entry-hyperlink" := by
            exact beq_iff_eq.mp h2
          subst this
          rfl
      · have : nodeType = "hyperlink" := by
          exact beq_iff_eq.mp h1
        subst this
        rfl
    simp only [collectSegmentsFromInline, hvar, if_pos, hentry,
      Bool.false_eq_true, if_false, hhref] at hs
    rw [List.mem_filterMap] at hs
    obtain ⟨child, hmem, hf⟩ := hs
    cases child with
    | text v marks =>
        simp at hf
        subst hf
        constructor
        · rfl
        · rfl
    | elem a b c => simp at hf

/-- The inline resolver on a concrete hyperlink node with one unmarked
text child. -/
theorem linkSeg_inline :
    collectSegmentsFromInline "hyperlink"
      { uri := some "https://example.com", target := none }
      [.text "click" []] DEFAULT_CONTEXT =
    [{ text := "click"
       bold := false
       italic := false
       underline := true
       code := false
       headingLevel := 0
       listType := none
       listIndent := 0
       hyperlink := some "https://example.com" }] := by
  decide

/-- Walking a paragraph holding one concrete hyperlink node. -/
theorem linkDoc_processBlock :
    processBlock (.elem "paragraph" emptyData
      [.elem "hyperlink" { uri := some "https://example.com", target := none }
        [.text "click" []]]) DEFAULT_CONTEXT =
      some
        [{ text := "click"
           bold := false
           italic := false
           underline := true
           code := false
           headingLevel := 0
           listType := none
           listIndent := 0
           hyperlink := some "https://example.com" }] := by
  rw [processBlock]
  simp [isHeadingType]
  rw [collectSegmentsFromBlock, collectFromChildren]
  simp [isBlockNode]
  rw [collectFromChildren, linkSeg_inline]
  simp

/-- The render plan of a document holding one paragraph with one concrete
hyperlink node. -/
theorem linkDoc_plan :
    documentToRenderPlan ⟨[.elem "paragraph" emptyData
      [.elem "hyperlink" { uri := some "https://example.com", target := none }
        [.text "click" []]]]⟩ =
      some [RenderBlock.text
        [{ text := "click"
           bold := false
           italic := false
           underline := true
           code := false
           headingLevel := 0
           listType := none
           listIndent := 0
           hyperlink := some "https://example.com" }]] := by
  rw [documentToRenderPlan]
  rw [show (⟨[.elem "paragraph" emptyData
      [.elem "hyperlink" { uri := some "https://example.com", target := none }
        [.text "click" []]]]⟩ : RichTextDocument).content =
    [.elem "paragraph" emptyData
      [.elem "hyperlink" { uri := some "https://example.com", target := none }
        [.text "click" []]]] from rfl]
  rw [planBlocksAux]
  rw [show planTopBlock (.elem "paragraph" emptyData
      [.elem "hyperlink" { uri := some "https://example.com", target := none }
        [.text "click" []]]) =
    (match processBlock (.elem "paragraph" emptyData
        [.elem "hyperlink" { uri := some "https://example.com", target := none }
          [.text "click" []]]) DEFAULT_CONTEXT with
     | some segments =>
        some (if segments.length > 0 then
          [RenderBlock.text (mergeAdjacentSegments segments)] else [])
     | none => none) by
      rw [planTopBlock]
      simp
      try rfl]
  rw [linkDoc_processBlock]
  simp [mergeAdjacentSegments, mergeAux, planBlocksAux]

/-- Witness for C3: both parts evaluated on a concrete hyperlink node with
an unmarked text child and on the document holding it. -/
theorem C3_hyperlink_forces_underline_witness :
    ((collectSegmentsFromInline "hyperlink"
        { uri := some "https://example.com", target := none }
        [.text "click" []] DEFAULT_CONTEXT).all
      (fun s => s.hyperlink == some "https://example.com" && s.underline)) = true ∧
    ({ text := "click"
       bold := false
       italic := false
       underline := true
       code := false
       headingLevel := 0
       listType := none
       listIndent := 0
       hyperlink := some "https://example.com" } : Segment).underline = true := by
  constructor
  · have h := C3_hyperlink_forces_underline.2 "hyperlink"
      { uri := some "https://example.com", target := none }
      [.text "click" []] DEFAULT_CONTEXT "https://example.com" (by decide) (by decide)
    rw [List.all_eq_true]
    intro s hs
    have h2 := h s hs
    simp [h2.1, h2.2]
  · have h := C3_hyperlink_forces_underline.1
      ⟨[.elem "paragraph" emptyData
        [.elem "hyperlink" { uri := some "https://example.com", target := none }
          [.text "click" []]]]⟩ _ linkDoc_plan
    exact h
      (RenderBlock.text
        [{ text := "click"
           bold := false
           italic := false
           underline := true
           code := false
           headingLevel := 0
           listType := none
           listIndent := 0
           hyperlink := some "https://example.com" }]) (by simp)
      _ (by simp [RenderBlock.allSegments]) (by rfl)

/-- The heading-level-zero predicate satisfies the walker closure
hypotheses on heading-free trees under heading-level-zero contexts. -/
theorem headingZeroInv_hyps : SegInvHyps headingZeroInv := by
  constructor
  · intro v marks ctx hQ
    simpa [headingZeroInv, textNodeToSegment] using hQ
  · intro seg u hP
    simpa [headingZeroInv] using hP
  · intro d ctx hQ
    simpa [headingZeroInv] using hQ
  · intro t
    simp [headingZeroInv]
  · intro ty d content ctx hty hN hQ
    exfalso
    simp only [headingZeroInv] at hN
    rw [noHeading, Bool.and_eq_true] at hN
    rw [hty] at hN
    simp at hN
  · intro ctx hQ
    simpa [headingZeroInv] using hQ
  · intro ctx lt hQ
    simpa [headingZeroInv] using hQ
  · intro ty d content hN c hc
    simp only [headingZeroInv] at hN ⊢
    rw [noHeading, Bool.and_eq_true] at hN
    exact noHeadingList_mem content hN.2 c hc

/-- A plain paragraph contains no heading node. -/
theorem noHeading_plainParagraph (v : String) :
    noHeading (plainParagraph v) = true := by
  rw [show plainParagraph v = .elem "paragraph" emptyData [.text v []] from rfl]
  rw [noHeading]
  simp [isHeadingType]
  rw [noHeadingList]
  rw [noHeading]
  simp [noHeadingList]

/-- C6: a heading block walks its content with a child context whose
heading level is parsed from the node type (`heading-1` … `heading-6`
parse to 1 … 6), and heading level is local to the heading subtree: a
block containing no heading node, walked under a context with heading
level 0 (as every sibling of a heading is), yields only segments with
`headingLevel = 0`. -/
theorem C6_heading_locality :
    (∀ (ty : String) (d : NodeData) (content : List RNode) (ctx : BlockContext),
      isHeadingType ty = true →
      processBlock (.elem ty d content) ctx =
        collectSegmentsFromBlock (.elem ty d content)
          { ctx with headingLevel := headingLevelFromNodeType ty }) ∧
    (headingLevelFromNodeType "heading-1" = 1 ∧
     headingLevelFromNodeType "heading-2" = 2 ∧
     headingLevelFromNodeType "heading-3" = 3 ∧
     headingLevelFromNodeType "heading-4" = 4 ∧
     headingLevelFromNodeType "heading-5" = 5 ∧
     headingLevelFromNodeType "heading-6" = 6) ∧
    (∀ (block : RNode) (ctx : BlockContext) (segs : List Segment),
      noHeading block = true → ctx.headingLevel = 0 →
      processBlock block ctx = some segs → ∀ s ∈ segs, s.headingLevel = 0) := by
  refine ⟨?_, by decide, ?_⟩
  · intro ty d content ctx hty
    rw [processBlock]
    simp [hty]
  · intro block ctx segs hN hQ h
    exact processBlock_inv headingZeroInv headingZeroInv_hyps block ctx hN hQ segs h

/-- Witness for C6: the dispatch equation evaluated on a concrete
`heading-2` block, and locality on a concrete plain paragraph. -/
theorem C6_heading_locality_witness :
    processBlock (.elem "heading-2" emptyData [.text "T" []]) DEFAULT_CONTEXT =
      collectSegmentsFromBlock (.elem "heading-2" emptyData [.text "T" []])
        { DEFAULT_CONTEXT with
            headingLevel := headingLevelFromNodeType "heading-2" } ∧
    (textNodeToSegment "x" [] DEFAULT_CONTEXT).headingLevel = 0 := by
  constructor
  · exact C6_heading_locality.1 "heading-2" emptyData [.text "T" []]
      DEFAULT_CONTEXT (by decide)
  · exact C6_heading_locality.2.2 (plainParagraph "x") DEFAULT_CONTEXT
      [textNodeToSegment "x" [] DEFAULT_CONTEXT] (noHeading_plainParagraph "x")
      (by rfl) (processBlock_plainParagraph "x" DEFAULT_CONTEXT) _ (by simp)
